import Mathlib

/-!
Verification of the Butterfly Audio Library core
(band-limited wavetable synthesis pipeline).

The definitions below are shallow embeddings of the C++ sources:
* `optimized_math.h` — `bitReverse` (32-bit word bit reversal, modelled on `ℕ`
  with explicit truncation `% 2^32`),
* `fft.h` — the iterative radix-2 decimation-in-time FFT (`detail::fft`
  with its direction parameter, and the `FFTCalculator` member transforms),
  modelled over `ℂ` (floating point is idealised as exact complex arithmetic),
* `antialiase.h` — spectral truncation `antialiase_dft` and the table builder
  `antialiase` (rates are modelled as `ℚ` so that the `floor` computation of
  the cutoff index is decidable),
* `wavetable_oscillator.h` — the wavetable oscillator state machine,
  `ForwardSearchTableSelector` and the morphing oscillator, modelled over `ℚ`
  with explicit state passing.
-/

namespace Butterfly

/-! ### `optimized_math.h`: 32-bit bit reversal

C++ source (`bitReverse`), operating on a 32-bit word:
```
x = (x << 16) | (x >> 16);
x = ((x & 0x00FF00FF) << 8) | ((x & 0xFF00FF00) >> 8);
x = ((x & 0x0F0F0F0F) << 4) | ((x & 0xF0F0F0F0) >> 4);
x = ((x & 0x33333333) << 2) | ((x & 0xCCCCCCCC) >> 2);
x = ((x & 0x55555555) << 1) | ((x & 0xAAAAAAAA) >> 1);
return ((x >> (32 - nb)) & (0xFFFFFFFF >> (32 - nb)));
```
Each assignment stores into a 32-bit word, hence the `% 2^32`.
-/

def rot16 (x : ℕ) : ℕ := ((x <<< 16) ||| (x >>> 16)) % 2 ^ 32

def swap8 (x : ℕ) : ℕ := (((x &&& 0x00FF00FF) <<< 8) ||| ((x &&& 0xFF00FF00) >>> 8)) % 2 ^ 32

def swap4 (x : ℕ) : ℕ := (((x &&& 0x0F0F0F0F) <<< 4) ||| ((x &&& 0xF0F0F0F0) >>> 4)) % 2 ^ 32

def swap2 (x : ℕ) : ℕ := (((x &&& 0x33333333) <<< 2) ||| ((x &&& 0xCCCCCCCC) >>> 2)) % 2 ^ 32

def swap1 (x : ℕ) : ℕ := (((x &&& 0x55555555) <<< 1) ||| ((x &&& 0xAAAAAAAA) >>> 1)) % 2 ^ 32

/-- The five word-swapping steps of `bitReverse` in sequence: a full 32-bit
bit reversal. -/
def rev32 (x : ℕ) : ℕ := swap1 (swap2 (swap4 (swap8 (rot16 x))))

/-- `Butterfly::bitReverse(x, nb)`: reverse the low `nb` bits of `x`. -/
def bitReverse (x : ℕ) (nb : ℕ) : ℕ :=
  (rev32 x >>> (32 - nb)) &&& (0xFFFFFFFF >>> (32 - nb))

theorem rev32_lt (x : ℕ) : rev32 x < 2 ^ 32 := by
  unfold rev32 swap1
  exact Nat.mod_lt _ (by norm_num)

theorem rot16_testBit (x : ℕ) (hx : x < 2 ^ 32) (j : ℕ) (hj : j < 32) :
    (rot16 x).testBit j = x.testBit (j ^^^ 16) := by
  have h32 : ∀ k, 32 ≤ k → x.testBit k = false := fun k hk =>
    Nat.testBit_lt_two_pow (lt_of_lt_of_le hx (Nat.pow_le_pow_right (by norm_num) hk))
  unfold rot16
  rcases Nat.lt_or_ge j 16 with h | h
  · have hxor : j ^^^ 16 = j + 16 := by
      have : j < 16 := h
      interval_cases j <;> rfl
    rw [hxor]
    rw [Nat.testBit_mod_two_pow, Nat.testBit_or, Nat.testBit_shiftLeft, Nat.testBit_shiftRight]
    simp only [hj, decide_True, Bool.true_and]
    have : ¬ (j ≥ 16) := by omega
    simp [this, Nat.add_comm 16 j]
  · have hxor : j ^^^ 16 = j - 16 := by
      interval_cases j <;> rfl
    rw [hxor]
    rw [Nat.testBit_mod_two_pow, Nat.testBit_or, Nat.testBit_shiftLeft, Nat.testBit_shiftRight]
    simp only [hj, decide_True, Bool.true_and]
    have hge : j ≥ 16 := h
    have hdead : x.testBit (16 + j) = false := h32 _ (by omega)
    simp [hge, hdead]

theorem swap8_testBit (x : ℕ) (hx : x < 2 ^ 32) (j : ℕ) (hj : j < 32) :
    (swap8 x).testBit j = x.testBit (j ^^^ 8) := by
  have h32 : ∀ k, 32 ≤ k → x.testBit k = false := fun k hk =>
    Nat.testBit_lt_two_pow (lt_of_lt_of_le hx (Nat.pow_le_pow_right (by norm_num) hk))
  have hM : ∀ k, Nat.testBit 0x00FF00FF k = (decide (k < 32) && decide (k % 16 < 8)) := by
    intro k
    rcases Nat.lt_or_ge k 32 with h | h
    · interval_cases k <;> decide
    · rw [Nat.testBit_lt_two_pow (lt_of_lt_of_le (by norm_num) (Nat.pow_le_pow_right (by norm_num) h))]
      simp [show ¬ k < 32 by omega]
  have hM' : ∀ k, Nat.testBit 0xFF00FF00 k = (decide (k < 32) && !decide (k % 16 < 8)) := by
    intro k
    rcases Nat.lt_or_ge k 32 with h | h
    · interval_cases k <;> decide
    · rw [Nat.testBit_lt_two_pow (lt_of_lt_of_le (by norm_num) (Nat.pow_le_pow_right (by norm_num) h))]
      simp [show ¬ k < 32 by omega]
  unfold swap8
  simp only [Nat.testBit_mod_two_pow, Nat.testBit_or, Nat.testBit_shiftLeft,
    Nat.testBit_shiftRight, Nat.testBit_and, hM, hM']
  rcases Nat.lt_or_ge (j % 16) 8 with hA | hA
  · have hxor : j ^^^ 8 = j + 8 := by interval_cases j <;> first | decide | omega
    rw [hxor]
    by_cases hge : 8 ≤ j
    · simp [hj, hge, show ¬ ((j - 8) % 16 < 8) by omega, show ¬ ((8 + j) % 16 < 8) by omega,
        show 8 + j < 32 by omega, Nat.add_comm 8 j, show j + 8 < 32 by omega,
        show 8 ≤ (j + 8) % 16 by omega]
    · simp [hj, hge, show ¬ ((8 + j) % 16 < 8) by omega, show 8 + j < 32 by omega,
        Nat.add_comm 8 j, show j + 8 < 32 by omega, show 8 ≤ (j + 8) % 16 by omega]
  · have hxor : j ^^^ 8 = j - 8 := by interval_cases j <;> first | decide | omega
    rw [hxor]
    simp [hj, show 8 ≤ j by omega, show (j - 8) % 16 < 8 by omega,
      show (8 + j) % 16 < 8 by omega, show j - 8 < 32 by omega]

theorem swap4_testBit (x : ℕ) (hx : x < 2 ^ 32) (j : ℕ) (hj : j < 32) :
    (swap4 x).testBit j = x.testBit (j ^^^ 4) := by
  have h32 : ∀ k, 32 ≤ k → x.testBit k = false := fun k hk =>
    Nat.testBit_lt_two_pow (lt_of_lt_of_le hx (Nat.pow_le_pow_right (by norm_num) hk))
  have hM : ∀ k, Nat.testBit 0x0F0F0F0F k = (decide (k < 32) && decide (k % 8 < 4)) := by
    intro k
    rcases Nat.lt_or_ge k 32 with h | h
    · interval_cases k <;> decide
    · rw [Nat.testBit_lt_two_pow (lt_of_lt_of_le (by norm_num) (Nat.pow_le_pow_right (by norm_num) h))]
      simp [show ¬ k < 32 by omega]
  have hM' : ∀ k, Nat.testBit 0xF0F0F0F0 k = (decide (k < 32) && !decide (k % 8 < 4)) := by
    intro k
    rcases Nat.lt_or_ge k 32 with h | h
    · interval_cases k <;> decide
    · rw [Nat.testBit_lt_two_pow (lt_of_lt_of_le (by norm_num) (Nat.pow_le_pow_right (by norm_num) h))]
      simp [show ¬ k < 32 by omega]
  unfold swap4
  simp only [Nat.testBit_mod_two_pow, Nat.testBit_or, Nat.testBit_shiftLeft,
    Nat.testBit_shiftRight, Nat.testBit_and, hM, hM']
  rcases Nat.lt_or_ge (j % 8) 4 with hA | hA
  · have hxor : j ^^^ 4 = j + 4 := by interval_cases j <;> first | decide | omega
    rw [hxor]
    by_cases hge : 4 ≤ j
    · simp [hj, hge, show ¬ ((j - 4) % 8 < 4) by omega, show ¬ ((4 + j) % 8 < 4) by omega,
        show 4 + j < 32 by omega, Nat.add_comm 4 j, show j + 4 < 32 by omega,
        show 4 ≤ (j + 4) % 8 by omega]
    · simp [hj, hge, show ¬ ((4 + j) % 8 < 4) by omega, show 4 + j < 32 by omega,
        Nat.add_comm 4 j, show j + 4 < 32 by omega, show 4 ≤ (j + 4) % 8 by omega]
  · have hxor : j ^^^ 4 = j - 4 := by interval_cases j <;> first | decide | omega
    rw [hxor]
    simp [hj, show 4 ≤ j by omega, show (j - 4) % 8 < 4 by omega,
      show (4 + j) % 8 < 4 by omega, show j - 4 < 32 by omega]

theorem swap2_testBit (x : ℕ) (hx : x < 2 ^ 32) (j : ℕ) (hj : j < 32) :
    (swap2 x).testBit j = x.testBit (j ^^^ 2) := by
  have h32 : ∀ k, 32 ≤ k → x.testBit k = false := fun k hk =>
    Nat.testBit_lt_two_pow (lt_of_lt_of_le hx (Nat.pow_le_pow_right (by norm_num) hk))
  have hM : ∀ k, Nat.testBit 0x33333333 k = (decide (k < 32) && decide (k % 4 < 2)) := by
    intro k
    rcases Nat.lt_or_ge k 32 with h | h
    · interval_cases k <;> decide
    · rw [Nat.testBit_lt_two_pow (lt_of_lt_of_le (by norm_num) (Nat.pow_le_pow_right (by norm_num) h))]
      simp [show ¬ k < 32 by omega]
  have hM' : ∀ k, Nat.testBit 0xCCCCCCCC k = (decide (k < 32) && !decide (k % 4 < 2)) := by
    intro k
    rcases Nat.lt_or_ge k 32 with h | h
    · interval_cases k <;> decide
    · rw [Nat.testBit_lt_two_pow (lt_of_lt_of_le (by norm_num) (Nat.pow_le_pow_right (by norm_num) h))]
      simp [show ¬ k < 32 by omega]
  unfold swap2
  simp only [Nat.testBit_mod_two_pow, Nat.testBit_or, Nat.testBit_shiftLeft,
    Nat.testBit_shiftRight, Nat.testBit_and, hM, hM']
  rcases Nat.lt_or_ge (j % 4) 2 with hA | hA
  · have hxor : j ^^^ 2 = j + 2 := by interval_cases j <;> first | decide | omega
    rw [hxor]
    by_cases hge : 2 ≤ j
    · simp [hj, hge, show ¬ ((j - 2) % 4 < 2) by omega, show ¬ ((2 + j) % 4 < 2) by omega,
        show 2 + j < 32 by omega, Nat.add_comm 2 j, show j + 2 < 32 by omega,
        show 2 ≤ (j + 2) % 4 by omega]
    · simp [hj, hge, show ¬ ((2 + j) % 4 < 2) by omega, show 2 + j < 32 by omega,
        Nat.add_comm 2 j, show j + 2 < 32 by omega, show 2 ≤ (j + 2) % 4 by omega]
  · have hxor : j ^^^ 2 = j - 2 := by interval_cases j <;> first | decide | omega
    rw [hxor]
    simp [hj, show 2 ≤ j by omega, show (j - 2) % 4 < 2 by omega,
      show (2 + j) % 4 < 2 by omega, show j - 2 < 32 by omega]

theorem swap1_testBit (x : ℕ) (hx : x < 2 ^ 32) (j : ℕ) (hj : j < 32) :
    (swap1 x).testBit j = x.testBit (j ^^^ 1) := by
  have h32 : ∀ k, 32 ≤ k → x.testBit k = false := fun k hk =>
    Nat.testBit_lt_two_pow (lt_of_lt_of_le hx (Nat.pow_le_pow_right (by norm_num) hk))
  have hM : ∀ k, Nat.testBit 0x55555555 k = (decide (k < 32) && decide (k % 2 < 1)) := by
    intro k
    rcases Nat.lt_or_ge k 32 with h | h
    · interval_cases k <;> decide
    · rw [Nat.testBit_lt_two_pow (lt_of_lt_of_le (by norm_num) (Nat.pow_le_pow_right (by norm_num) h))]
      simp [show ¬ k < 32 by omega]
  have hM' : ∀ k, Nat.testBit 0xAAAAAAAA k = (decide (k < 32) && !decide (k % 2 < 1)) := by
    intro k
    rcases Nat.lt_or_ge k 32 with h | h
    · interval_cases k <;> decide
    · rw [Nat.testBit_lt_two_pow (lt_of_lt_of_le (by norm_num) (Nat.pow_le_pow_right (by norm_num) h))]
      simp [show ¬ k < 32 by omega]
  unfold swap1
  simp only [Nat.testBit_mod_two_pow, Nat.testBit_or, Nat.testBit_shiftLeft,
    Nat.testBit_shiftRight, Nat.testBit_and, hM, hM']
  rcases Nat.lt_or_ge (j % 2) 1 with hA | hA
  · have hxor : j ^^^ 1 = j + 1 := by interval_cases j <;> first | decide | omega
    rw [hxor]
    by_cases hge : 1 ≤ j
    · simp [hj, hge, show ¬ ((j - 1) % 2 < 1) by omega, show ¬ ((1 + j) % 2 < 1) by omega,
        show 1 + j < 32 by omega, Nat.add_comm 1 j, show j + 1 < 32 by omega,
        show (j + 1) % 2 = 1 by omega]
    · simp [hj, hge, show ¬ ((1 + j) % 2 < 1) by omega, show 1 + j < 32 by omega,
        Nat.add_comm 1 j, show j + 1 < 32 by omega, show (j + 1) % 2 = 1 by omega]
  · have hxor : j ^^^ 1 = j - 1 := by interval_cases j <;> first | decide | omega
    rw [hxor]
    simp [hj, show 1 ≤ j by omega, show (j - 1) % 2 < 1 by omega,
      show (1 + j) % 2 < 1 by omega, show j - 1 < 32 by omega]

theorem rot16_lt (x : ℕ) : rot16 x < 2 ^ 32 := Nat.mod_lt _ (by norm_num)

theorem swap8_lt (x : ℕ) : swap8 x < 2 ^ 32 := Nat.mod_lt _ (by norm_num)

theorem swap4_lt (x : ℕ) : swap4 x < 2 ^ 32 := Nat.mod_lt _ (by norm_num)

theorem swap2_lt (x : ℕ) : swap2 x < 2 ^ 32 := Nat.mod_lt _ (by norm_num)

theorem rev32_testBit (x : ℕ) (hx : x < 2 ^ 32) (j : ℕ) (hj : j < 32) :
    (rev32 x).testBit j = x.testBit (31 - j) := by
  have p5 : (32 : ℕ) = 2 ^ 5 := by norm_num
  have h1 : j ^^^ 1 < 32 := by
    rw [p5] at hj ⊢; exact Nat.xor_lt_two_pow hj (by norm_num)
  have h2 : (j ^^^ 1) ^^^ 2 < 32 := by
    rw [p5] at h1 ⊢; exact Nat.xor_lt_two_pow h1 (by norm_num)
  have h3 : ((j ^^^ 1) ^^^ 2) ^^^ 4 < 32 := by
    rw [p5] at h2 ⊢; exact Nat.xor_lt_two_pow h2 (by norm_num)
  have h4 : (((j ^^^ 1) ^^^ 2) ^^^ 4) ^^^ 8 < 32 := by
    rw [p5] at h3 ⊢; exact Nat.xor_lt_two_pow h3 (by norm_num)
  unfold rev32
  rw [swap1_testBit _ (swap2_lt _) j hj, swap2_testBit _ (swap4_lt _) _ h1,
    swap4_testBit _ (swap8_lt _) _ h2, swap8_testBit _ (rot16_lt _) _ h3,
    rot16_testBit _ hx _ h4]
  rw [show (((j ^^^ 1) ^^^ 2) ^^^ 4) ^^^ 8 ^^^ 16 = 31 - j by interval_cases j <;> decide]

theorem bitReverse_testBit (x nb : ℕ) (hx : x < 2 ^ 32) (hnb : nb ≤ 32) (j : ℕ) :
    (bitReverse x nb).testBit j = (decide (j < nb) && x.testBit (nb - 1 - j)) := by
  unfold bitReverse
  rw [show (0xFFFFFFFF : ℕ) = 2 ^ 32 - 1 from rfl]
  rw [Nat.testBit_and, Nat.testBit_shiftRight, Nat.testBit_shiftRight,
    Nat.testBit_two_pow_sub_one]
  rcases Nat.lt_or_ge j nb with h | h
  · rw [rev32_testBit x hx _ (by omega)]
    rw [show 31 - (32 - nb + j) = nb - 1 - j by omega]
    simp [h, show 32 - nb + j < 32 by omega]
  · simp [show ¬ (32 - nb + j < 32) by omega, show ¬ (j < nb) by omega]

theorem bitReverse_lt_two_pow (x nb : ℕ) (hnb : nb ≤ 32) : bitReverse x nb < 2 ^ nb := by
  have h1 : bitReverse x nb ≤ (0xFFFFFFFF : ℕ) >>> (32 - nb) := Nat.and_le_right
  have h2 : (0xFFFFFFFF : ℕ) >>> (32 - nb) < 2 ^ nb := by
    rw [show (0xFFFFFFFF : ℕ) = 2 ^ 32 - 1 from rfl, Nat.shiftRight_eq_div_pow]
    rw [Nat.div_lt_iff_lt_mul (Nat.pos_pow_of_pos _ (by norm_num))]
    calc 2 ^ 32 - 1 < 2 ^ 32 := by norm_num
    _ = 2 ^ nb * 2 ^ (32 - nb) := by rw [← pow_add]; congr 1; omega
  exact lt_of_le_of_lt h1 h2

theorem bitReverse_bitReverse (x nb : ℕ) (hx : x < 2 ^ nb) (hnb : nb ≤ 32) :
    bitReverse (bitReverse x nb) nb = x := by
  have hx32 : x < 2 ^ 32 := lt_of_lt_of_le hx (Nat.pow_le_pow_right (by norm_num) hnb)
  have hb32 : bitReverse x nb < 2 ^ 32 :=
    lt_of_lt_of_le (bitReverse_lt_two_pow x nb hnb) (Nat.pow_le_pow_right (by norm_num) hnb)
  apply Nat.eq_of_testBit_eq
  intro j
  rcases Nat.lt_or_ge j nb with h | h
  · rw [bitReverse_testBit _ nb hb32 hnb j, bitReverse_testBit x nb hx32 hnb]
    simp [h, show nb - 1 - j < nb by omega, show nb - 1 - (nb - 1 - j) = j by omega]
  · rw [bitReverse_testBit _ nb hb32 hnb j]
    simp [show ¬ (j < nb) by omega]
    exact Nat.testBit_lt_two_pow (lt_of_lt_of_le hx (Nat.pow_le_pow_right (by norm_num) h))

/-- The `butterfly_indices` table computed in the `FFTCalculator` constructor:
`butterfly_indices[i] = bitReverse(i, log_n)`. -/
def butterfly_indices (log_n : ℕ) : ℕ → ℕ := fun i => bitReverse i log_n

/-- Claim C10: the bit-reversal permutation is an involution: for every bit
count `n` with `1 ≤ n ≤ 31` and every index `i < 2^n`, `bitReverse i n` is
below `2^n` and `bitReverse (bitReverse i n) n = i`; hence the
`butterfly_indices` table of `FFTCalculator` is a permutation of `0..N-1`
(injective on the range, every value attained, image of the range equal to
the range). -/
theorem c10_bitReverse_involution (n : ℕ) (hn1 : 1 ≤ n) (hn2 : n ≤ 31) (i : ℕ)
    (hi : i < 2 ^ n) :
    bitReverse i n < 2 ^ n ∧
    bitReverse (bitReverse i n) n = i ∧
    (∀ j, j < 2 ^ n → bitReverse i n = bitReverse j n → i = j) ∧
    (∃ k, k < 2 ^ n ∧ bitReverse k n = i) ∧
    (Finset.range (2 ^ n)).image (butterfly_indices n) = Finset.range (2 ^ n) := by
  have hn32 : n ≤ 32 := by omega
  refine ⟨bitReverse_lt_two_pow i n hn32, bitReverse_bitReverse i n hi hn32, ?_, ?_, ?_⟩
  · intro j hj h
    have := bitReverse_bitReverse i n hi hn32
    have hj' := bitReverse_bitReverse j n hj hn32
    rw [← this, h, hj']
  · exact ⟨bitReverse i n, bitReverse_lt_two_pow i n hn32, bitReverse_bitReverse i n hi hn32⟩
  · have hsub : (Finset.range (2 ^ n)).image (butterfly_indices n) ⊆ Finset.range (2 ^ n) := by
      intro a ha
      rcases Finset.mem_image.mp ha with ⟨b, _, hb⟩
      exact Finset.mem_range.mpr (hb ▸ bitReverse_lt_two_pow b n hn32)
    have hinj : Set.InjOn (butterfly_indices n) (Finset.range (2 ^ n)) := by
      intro a ha b hb hab
      have ha' := bitReverse_bitReverse a n (Finset.mem_range.mp ha) hn32
      have hb' := bitReverse_bitReverse b n (Finset.mem_range.mp hb) hn32
      unfold butterfly_indices at hab
      rw [← ha', hab, hb']
    have hcard := Finset.card_image_of_injOn hinj
    exact Finset.eq_of_subset_of_card_le hsub (by rw [hcard])

/-- Witness for C10: instance at `n = 3`, `i = 5`. -/
theorem c10_bitReverse_involution_witness :
    (1 : ℕ) ≤ 3 ∧ (3 : ℕ) ≤ 31 ∧ (5 : ℕ) < 2 ^ 3 ∧
    bitReverse (bitReverse 5 3) 3 = 5 :=
  ⟨by norm_num, by norm_num, by norm_num,
    (c10_bitReverse_involution 3 (by norm_num) (by norm_num) 5 (by norm_num)).2.1⟩

/-! ### `fft.h`: iterative radix-2 decimation-in-time FFT

C++ source (`detail::fft`, shared by the free `fft`/`ifft` functions; the
`FFTCalculator` members run the same loops with precomputed
`butterfly_indices` and twiddles `z[s]`):
```
for (i < size)  out[i] = nrm * in[bitReverse(i, log_n)];
for (s < log_n) {
  m2 = 1 << s; m = m2 << 1; w = {1,0};
  wm = polar(1, dir * pi / m2);
  for (j < m2) {
    for (k = j; k < size; k += m) {
      t = w * out[k + m2]; u = out[k];
      out[k] = u + t; out[k + m2] = u - t;
    }
    w *= wm;
  }
}
```
The mutable output buffer is modelled as a function `ℕ → ℂ`; the loops are
explicit state-passing recursions over their iteration counts.
-/

/-- One butterfly: the body of the innermost loop. -/
def butterflyUpdate (w : ℂ) (k m2 : ℕ) (out : ℕ → ℂ) : ℕ → ℂ := fun i =>
  if i = k then out k + w * out (k + m2)
  else if i = k + m2 then out k - w * out (k + m2)
  else out i

/-- Inner loop `for (k = j; k < size; k += m)`; the iteration count
(`size / m` at the call site) is passed as fuel. -/
def kLoop (w : ℂ) (m2 m : ℕ) : ℕ → ℕ → (ℕ → ℂ) → (ℕ → ℂ)
  | _, 0, out => out
  | k, cnt + 1, out => kLoop w m2 m (k + m) cnt (butterflyUpdate w k m2 out)

/-- Middle loop `for (j = 0; j < m2; ++j)` with the accumulating twiddle
`w` (`w *= wm` after each pass). -/
def jLoop (wm : ℂ) (m2 m N : ℕ) : ℕ → ℕ → ℂ → (ℕ → ℂ) → (ℕ → ℂ)
  | _, 0, _, out => out
  | j, cnt + 1, w, out => jLoop wm m2 m N (j + 1) cnt (w * wm) (kLoop w m2 m j (N / m) out)

/-- One FFT stage `s` (`m2 = 2^s`, `m = m2 << 1`). -/
def stageStep (wm : ℂ) (s N : ℕ) (out : ℕ → ℂ) : ℕ → ℂ :=
  jLoop wm (2 ^ s) (2 * 2 ^ s) N 0 (2 ^ s) 1 out

/-- The stage loop `for (s = 0; s < log_n; ++s)`, with per-stage twiddle
base `wmOf s`. -/
def stagesLoop (wmOf : ℕ → ℂ) (N : ℕ) : ℕ → (ℕ → ℂ) → (ℕ → ℂ)
  | 0, out => out
  | s + 1, out => stageStep (wmOf s) s N (stagesLoop wmOf N s out)

theorem butterflyUpdate_other (w : ℂ) (k m2 : ℕ) (out : ℕ → ℂ) (i : ℕ)
    (h1 : i ≠ k) (h2 : i ≠ k + m2) : butterflyUpdate w k m2 out i = out i := by
  unfold butterflyUpdate
  rw [if_neg h1, if_neg h2]

theorem butterflyUpdate_left (w : ℂ) (k m2 : ℕ) (out : ℕ → ℂ) :
    butterflyUpdate w k m2 out k = out k + w * out (k + m2) := by
  unfold butterflyUpdate
  rw [if_pos rfl]

theorem butterflyUpdate_right (w : ℂ) (k m2 : ℕ) (hm2 : 0 < m2) (out : ℕ → ℂ) :
    butterflyUpdate w k m2 out (k + m2) = out k - w * out (k + m2) := by
  unfold butterflyUpdate
  rw [if_neg (by omega), if_pos rfl]

theorem kLoop_untouched_lt (w : ℂ) (m2 m : ℕ) (cnt : ℕ) (k0 : ℕ) (out : ℕ → ℂ) (i : ℕ)
    (h : i < k0) : kLoop w m2 m k0 cnt out i = out i := by
  induction cnt generalizing k0 out with
  | zero => simp only [kLoop]
  | succ cnt ih =>
    simp only [kLoop]
    rw [ih (k0 + m) _ (by omega), butterflyUpdate_other _ _ _ _ _ (by omega) (by omega)]

theorem kLoop_untouched_mod (w : ℂ) (m2 m : ℕ) (cnt : ℕ) (k0 : ℕ) (out : ℕ → ℂ) (i : ℕ)
    (h1 : i % m ≠ k0 % m) (h2 : i % m ≠ (k0 + m2) % m) :
    kLoop w m2 m k0 cnt out i = out i := by
  induction cnt generalizing k0 out with
  | zero => simp only [kLoop]
  | succ cnt ih =>
    simp only [kLoop]
    have e1 : (k0 + m) % m = k0 % m := Nat.add_mod_right k0 m
    have e2 : (k0 + m + m2) % m = (k0 + m2) % m := by rw [add_right_comm, Nat.add_mod_right]
    rw [ih (k0 + m) _ (by rw [e1]; exact h1) (by rw [e2]; exact h2)]
    exact butterflyUpdate_other _ _ _ _ _ (fun he => h1 (by rw [he])) (fun he => h2 (by rw [he]))

theorem kLoop_pair_left (w : ℂ) (m2 m : ℕ) (hm2 : 0 < m2) (hm : m = 2 * m2) (cnt : ℕ)
    (k0 : ℕ) (out : ℕ → ℂ) (i r : ℕ) (hr : r < cnt) (hi : i = k0 + r * m) :
    kLoop w m2 m k0 cnt out i = out i + w * out (i + m2) := by
  induction cnt generalizing k0 out r with
  | zero => exact absurd hr (by omega)
  | succ cnt ih =>
    simp only [kLoop]
    cases r with
    | zero =>
      simp only [Nat.zero_mul, Nat.add_zero] at hi
      subst hi
      rw [kLoop_untouched_lt _ _ _ _ _ _ _ (by omega), butterflyUpdate_left]
    | succ r' =>
      have hi' : i = (k0 + m) + r' * m := by rw [hi, Nat.succ_mul]; ring
      rw [ih (k0 + m) _ r' (by omega) hi']
      have hge : k0 + m ≤ i := by rw [hi']; exact Nat.le_add_right _ _
      rw [butterflyUpdate_other _ _ _ _ _ (by omega) (by omega),
        butterflyUpdate_other _ _ _ _ _ (by omega) (by omega)]

theorem kLoop_pair_right (w : ℂ) (m2 m : ℕ) (hm2 : 0 < m2) (hm : m = 2 * m2) (cnt : ℕ)
    (k0 : ℕ) (out : ℕ → ℂ) (i r : ℕ) (hr : r < cnt) (hi : i = k0 + r * m + m2) :
    kLoop w m2 m k0 cnt out i = out (i - m2) - w * out i := by
  induction cnt generalizing k0 out r with
  | zero => exact absurd hr (by omega)
  | succ cnt ih =>
    simp only [kLoop]
    cases r with
    | zero =>
      simp only [Nat.zero_mul, Nat.add_zero] at hi
      subst hi
      rw [kLoop_untouched_lt _ _ _ _ _ _ _ (by omega), butterflyUpdate_right _ _ _ hm2,
        Nat.add_sub_cancel]
    | succ r' =>
      have hi' : i = (k0 + m) + r' * m + m2 := by rw [hi, Nat.succ_mul]; ring
      rw [ih (k0 + m) _ r' (by omega) hi']
      have hge : k0 + m ≤ i := by rw [hi']; omega
      have hge2 : k0 + m ≤ i - m2 := by rw [hi']; omega
      rw [butterflyUpdate_other _ _ _ _ _ (by omega) (by omega),
        butterflyUpdate_other _ _ _ _ _ (by omega) (by omega)]

theorem mod_shift_up (i m2 m : ℕ) (h1 : i % m + m2 < m) :
    (i + m2) % m = i % m + m2 := by
  conv_lhs => rw [← Nat.div_add_mod i m]
  rw [add_assoc, Nat.mul_add_mod, Nat.mod_eq_of_lt h1]

theorem mod_shift_down (i m2 m : ℕ) (hm : 0 < m) (h1 : m2 ≤ i % m) :
    (i - m2) % m = i % m - m2 := by
  conv_lhs => rw [← Nat.div_add_mod i m]
  rw [Nat.add_sub_assoc h1, Nat.mul_add_mod,
    Nat.mod_eq_of_lt (lt_of_le_of_lt (Nat.sub_le _ _) (Nat.mod_lt _ hm))]

theorem jLoop_untouched (wm : ℂ) (m2 m N : ℕ) (hm2 : 0 < m2) (hm : m = 2 * m2)
    (cnt : ℕ) (j0 : ℕ) (w0 : ℂ) (out : ℕ → ℂ) (i : ℕ) (hcnt : j0 + cnt ≤ m2)
    (h1 : ∀ j, j0 ≤ j → j < j0 + cnt → i % m ≠ j ∧ i % m ≠ j + m2) :
    jLoop wm m2 m N j0 cnt w0 out i = out i := by
  induction cnt generalizing j0 w0 out with
  | zero => simp only [jLoop]
  | succ cnt ih =>
    simp only [jLoop]
    rw [ih (j0 + 1) _ _ (by omega) (fun j hj1 hj2 => h1 j (by omega) (by omega))]
    have hj0 := h1 j0 (le_refl _) (by omega)
    exact kLoop_untouched_mod _ _ _ _ _ _ _
      (by rw [Nat.mod_eq_of_lt (by omega : j0 < m)]; exact hj0.1)
      (by rw [Nat.mod_eq_of_lt (by omega : j0 + m2 < m)]; exact hj0.2)

theorem jLoop_pair_left (wm : ℂ) (m2 m N : ℕ) (hm2 : 0 < m2) (hm : m = 2 * m2)
    (hdvd : m ∣ N) (cnt : ℕ) (j0 : ℕ) (w0 : ℂ) (out : ℕ → ℂ) (i : ℕ)
    (hcnt : j0 + cnt ≤ m2) (hiN : i < N) (hlo : j0 ≤ i % m) (hhi : i % m < j0 + cnt) :
    jLoop wm m2 m N j0 cnt w0 out i = out i + (w0 * wm ^ (i % m - j0)) * out (i + m2) := by
  induction cnt generalizing j0 w0 out with
  | zero => omega
  | succ cnt ih =>
    have hmpos : 0 < m := by omega
    have hup : (i + m2) % m = i % m + m2 := mod_shift_up i m2 m (by omega)
    by_cases hj : i % m = j0
    · simp only [jLoop]
      rw [jLoop_untouched wm m2 m N hm2 hm cnt (j0 + 1) _ _ i (by omega)
        (fun j hj1 hj2 => ⟨by omega, by omega⟩)]
      have hr : i / m < N / m := Nat.div_lt_div_of_lt_of_dvd hdvd hiN
      have hieq : i = j0 + (i / m) * m := by
        have h := Nat.div_add_mod i m
        have hc : i / m * m = m * (i / m) := Nat.mul_comm _ _
        omega
      rw [kLoop_pair_left w0 m2 m hm2 hm (N / m) j0 out i (i / m) hr hieq, hj]
      simp
    · simp only [jLoop]
      rw [ih (j0 + 1) (w0 * wm) _ (by omega) (by omega) (by omega)]
      have e1 : w0 * wm * wm ^ (i % m - (j0 + 1)) = w0 * wm ^ (i % m - j0) := by
        have e2 : i % m - j0 = i % m - (j0 + 1) + 1 := by omega
        rw [e2, pow_succ', ← mul_assoc]
      rw [e1,
        kLoop_untouched_mod _ _ _ _ _ _ _
          (by rw [Nat.mod_eq_of_lt (by omega : j0 < m)]; omega)
          (by rw [Nat.mod_eq_of_lt (by omega : j0 + m2 < m)]; omega),
        kLoop_untouched_mod _ _ _ _ _ _ _
          (by rw [hup, Nat.mod_eq_of_lt (by omega : j0 < m)]; omega)
          (by rw [hup, Nat.mod_eq_of_lt (by omega : j0 + m2 < m)]; omega)]

theorem jLoop_pair_right (wm : ℂ) (m2 m N : ℕ) (hm2 : 0 < m2) (hm : m = 2 * m2)
    (hdvd : m ∣ N) (cnt : ℕ) (j0 : ℕ) (w0 : ℂ) (out : ℕ → ℂ) (i : ℕ)
    (hcnt : j0 + cnt ≤ m2) (hiN : i < N) (hlo : j0 + m2 ≤ i % m)
    (hhi : i % m < j0 + m2 + cnt) :
    jLoop wm m2 m N j0 cnt w0 out i
      = out (i - m2) - (w0 * wm ^ (i % m - m2 - j0)) * out i := by
  induction cnt generalizing j0 w0 out with
  | zero => omega
  | succ cnt ih =>
    have hmpos : 0 < m := by omega
    have hdown : (i - m2) % m = i % m - m2 := mod_shift_down i m2 m hmpos (by omega)
    by_cases hj : i % m = j0 + m2
    · simp only [jLoop]
      rw [jLoop_untouched wm m2 m N hm2 hm cnt (j0 + 1) _ _ i (by omega)
        (fun j hj1 hj2 => ⟨by omega, by omega⟩)]
      have hr : i / m < N / m := Nat.div_lt_div_of_lt_of_dvd hdvd hiN
      have hieq : i = j0 + (i / m) * m + m2 := by
        have h := Nat.div_add_mod i m
        have hc : i / m * m = m * (i / m) := Nat.mul_comm _ _
        omega
      rw [kLoop_pair_right w0 m2 m hm2 hm (N / m) j0 out i (i / m) hr hieq, hj]
      simp
    · simp only [jLoop]
      rw [ih (j0 + 1) (w0 * wm) _ (by omega) (by omega) (by omega)]
      have e1 : w0 * wm * wm ^ (i % m - m2 - (j0 + 1)) = w0 * wm ^ (i % m - m2 - j0) := by
        have e2 : i % m - m2 - j0 = i % m - m2 - (j0 + 1) + 1 := by omega
        rw [e2, pow_succ', ← mul_assoc]
      rw [e1,
        kLoop_untouched_mod _ _ _ _ _ _ _
          (by rw [hdown, Nat.mod_eq_of_lt (by omega : j0 < m)]; omega)
          (by rw [hdown, Nat.mod_eq_of_lt (by omega : j0 + m2 < m)]; omega),
        kLoop_untouched_mod _ _ _ _ _ _ _
          (by rw [Nat.mod_eq_of_lt (by omega : j0 < m)]; omega)
          (by rw [Nat.mod_eq_of_lt (by omega : j0 + m2 < m)]; omega)]

theorem stageStep_left (wm : ℂ) (s N : ℕ) (hdvd : 2 * 2 ^ s ∣ N) (out : ℕ → ℂ) (i : ℕ)
    (hiN : i < N) (hmod : i % (2 * 2 ^ s) < 2 ^ s) :
    stageStep wm s N out i = out i + wm ^ (i % (2 * 2 ^ s)) * out (i + 2 ^ s) := by
  have hm2 : 0 < 2 ^ s := Nat.pos_pow_of_pos s (by norm_num)
  unfold stageStep
  rw [jLoop_pair_left wm (2 ^ s) (2 * 2 ^ s) N hm2 rfl hdvd (2 ^ s) 0 1 out i
    (by omega) hiN (Nat.zero_le _) (by omega)]
  simp

theorem stageStep_right (wm : ℂ) (s N : ℕ) (hdvd : 2 * 2 ^ s ∣ N) (out : ℕ → ℂ) (i : ℕ)
    (hiN : i < N) (hmod : 2 ^ s ≤ i % (2 * 2 ^ s)) :
    stageStep wm s N out i
      = out (i - 2 ^ s) - wm ^ (i % (2 * 2 ^ s) - 2 ^ s) * out i := by
  have hm2 : 0 < 2 ^ s := Nat.pos_pow_of_pos s (by norm_num)
  have hmlt : i % (2 * 2 ^ s) < 2 * 2 ^ s := Nat.mod_lt _ (by omega)
  unfold stageStep
  rw [jLoop_pair_right wm (2 ^ s) (2 * 2 ^ s) N hm2 rfl hdvd (2 ^ s) 0 1 out i
    (by omega) hiN (by omega) (by omega)]
  simp

/-- The per-stage twiddle base of `detail::fft`:
`wm = std::polar(T(1), T(dir) * pi / T(m2))` with `m2 = 2^s`. -/
noncomputable def detailWm (dir : ℤ) (s : ℕ) : ℂ :=
  Complex.exp ((((dir : ℝ) * Real.pi / 2 ^ s : ℝ) : ℂ) * Complex.I)

/-- The normalization `nrm = 1 / sqrt(size)` applied by every transform. -/
noncomputable def nrm (N : ℕ) : ℂ := 1 / (Real.sqrt N : ℝ)

/-- `detail::fft(first, last, out, dir)` for an input of length `2^log_n`,
with `dir = 1` (`FFTDirection::Forward`) or `dir = -1` (`Backward`). -/
noncomputable def fftIter (dir : ℤ) (log_n : ℕ) (x : ℕ → ℂ) : ℕ → ℂ :=
  stagesLoop (detailWm dir) (2 ^ log_n) log_n
    (fun i => nrm (2 ^ log_n) * x (bitReverse i log_n))

/-- Free function `fft` (calls `detail::fft` with `FFTDirection::Forward`). -/
noncomputable def fft (log_n : ℕ) (x : ℕ → ℂ) : ℕ → ℂ := fftIter 1 log_n x

/-- Free function `ifft` (calls `detail::fft` with `FFTDirection::Backward`). -/
noncomputable def ifft (log_n : ℕ) (x : ℕ → ℂ) : ℕ → ℂ := fftIter (-1) log_n x

/-- The precomputed twiddle table of the `FFTCalculator` constructor:
`z[s] = std::polar(T(1), pi / m2)` with `m2 = 2^s`. -/
noncomputable def fftCalculator_z (s : ℕ) : ℂ :=
  Complex.exp (((Real.pi / 2 ^ s : ℝ) : ℂ) * Complex.I)

/-- `FFTCalculator::fft`: the same loops as `detail::fft` with the
precomputed `butterfly_indices` and twiddles `z[s]`. -/
noncomputable def FFTCalculator_fft (log_n : ℕ) (x : ℕ → ℂ) : ℕ → ℂ :=
  stagesLoop fftCalculator_z (2 ^ log_n) log_n
    (fun i => nrm (2 ^ log_n) * x (butterfly_indices log_n i))

/-- `FFTCalculator::ifft`: same loops with the conjugated twiddles
`wm = complex{z[s].real(), -z[s].imag()}`. -/
noncomputable def FFTCalculator_ifft (log_n : ℕ) (x : ℕ → ℂ) : ℕ → ℂ :=
  stagesLoop (fun s => (starRingEnd ℂ) (fftCalculator_z s)) (2 ^ log_n) log_n
    (fun i => nrm (2 ^ log_n) * x (butterfly_indices log_n i))

/-- `FFTCalculator::ifft_real`: the `ifft` loops on a scratch complex buffer,
then only the real part of each element is written out. -/
noncomputable def FFTCalculator_ifft_real (log_n : ℕ) (x : ℕ → ℂ) : ℕ → ℝ :=
  fun i => (FFTCalculator_ifft log_n x i).re

/-- The `2^k`-th root of unity `exp(d * 2πi / 2^k)` used to state what the
stage loops compute. -/
noncomputable def eroot (d : ℤ) (n : ℕ) : ℂ :=
  Complex.exp ((d : ℂ) * (2 * (Real.pi : ℂ) * Complex.I) / (n : ℂ))

theorem detailWm_eq_eroot (d : ℤ) (s : ℕ) : detailWm d s = eroot d (2 ^ (s + 1)) := by
  unfold detailWm eroot
  congr 1
  have h1 : ((2 : ℂ) ^ s) ≠ 0 := pow_ne_zero _ two_ne_zero
  have h2 : ((2 : ℂ) ^ (s + 1)) ≠ 0 := pow_ne_zero _ two_ne_zero
  push_cast
  field_simp
  ring

theorem fftCalculator_z_eq (s : ℕ) : fftCalculator_z s = detailWm 1 s := by
  unfold fftCalculator_z detailWm
  norm_num

theorem conj_fftCalculator_z_eq (s : ℕ) :
    (starRingEnd ℂ) (fftCalculator_z s) = detailWm (-1) s := by
  unfold fftCalculator_z detailWm
  rw [← Complex.exp_conj]
  congr 1
  rw [map_mul, Complex.conj_ofReal, Complex.conj_I]
  push_cast
  ring

theorem eroot_sq (d : ℤ) (s : ℕ) : eroot d (2 ^ (s + 1)) ^ 2 = eroot d (2 ^ s) := by
  unfold eroot
  rw [← Complex.exp_nat_mul]
  congr 1
  have h1 : ((2 : ℂ) ^ s) ≠ 0 := pow_ne_zero _ two_ne_zero
  have h2 : ((2 : ℂ) ^ (s + 1)) ≠ 0 := pow_ne_zero _ two_ne_zero
  push_cast
  field_simp
  ring

theorem eroot_pow_half (d : ℤ) (hd : d = 1 ∨ d = -1) (s : ℕ) :
    eroot d (2 ^ (s + 1)) ^ (2 ^ s) = -1 := by
  unfold eroot
  rw [← Complex.exp_nat_mul]
  have harg : ((2 ^ s : ℕ) : ℂ) * ((d : ℂ) * (2 * (Real.pi : ℂ) * Complex.I)
        / (((2 ^ (s + 1) : ℕ)) : ℂ))
      = (d : ℂ) * ((Real.pi : ℂ) * Complex.I) := by
    have h1 : ((2 : ℂ) ^ s) ≠ 0 := pow_ne_zero _ two_ne_zero
    have h2 : ((2 : ℂ) ^ (s + 1)) ≠ 0 := pow_ne_zero _ two_ne_zero
    push_cast
    field_simp
    ring
  rw [harg]
  rcases hd with h | h <;> subst h
  · norm_num [Complex.exp_pi_mul_I]
  · push_cast
    rw [show (-1 : ℂ) * ((Real.pi : ℂ) * Complex.I) = -((Real.pi : ℂ) * Complex.I) by ring,
      Complex.exp_neg, Complex.exp_pi_mul_I]
    norm_num

theorem eroot_pow_self (d : ℤ) (n : ℕ) (hn : n ≠ 0) : eroot d n ^ n = 1 := by
  unfold eroot
  rw [← Complex.exp_nat_mul]
  have hne : ((n : ℂ)) ≠ 0 := Nat.cast_ne_zero.mpr hn
  have harg : (n : ℂ) * ((d : ℂ) * (2 * (Real.pi : ℂ) * Complex.I) / (n : ℂ))
      = (d : ℂ) * (2 * (Real.pi : ℂ) * Complex.I) := by
    field_simp
  rw [harg]
  exact Complex.exp_int_mul_two_pi_mul_I d

theorem bitReverse_two_mul (q n : ℕ) (hq : q < 2 ^ n) (hn : n + 1 ≤ 32) :
    bitReverse (2 * q) (n + 1) = bitReverse q n := by
  have hq2 : 2 * q < 2 ^ (n + 1) := by rw [pow_succ]; omega
  have hx1 : 2 * q < 2 ^ 32 := lt_of_lt_of_le hq2 (Nat.pow_le_pow_right (by norm_num) hn)
  have hx2 : q < 2 ^ 32 := lt_of_lt_of_le hq (Nat.pow_le_pow_right (by norm_num) (by omega))
  have h2q : ∀ k, (2 * q).testBit k = if k < 1 then false else q.testBit (k - 1) := by
    intro k
    have h := Nat.testBit_mul_pow_two_add q (show (0 : ℕ) < 2 ^ 1 by norm_num) k
    simp only [pow_one, Nat.add_zero] at h
    rw [h]
    rcases Nat.lt_or_ge k 1 with hk | hk
    · rw [if_pos hk, if_pos hk]
      simp
    · rw [if_neg (by omega), if_neg (by omega)]
  apply Nat.eq_of_testBit_eq
  intro j
  rw [bitReverse_testBit _ _ hx1 (by omega) j, bitReverse_testBit _ _ hx2 (by omega) j, h2q]
  rcases Nat.lt_or_ge j n with h | h
  · rw [show n + 1 - 1 - j = n - j by omega, if_neg (by omega),
      show n - j - 1 = n - 1 - j by omega]
    simp [show j < n + 1 by omega, h]
  · rcases Nat.eq_or_lt_of_le h with h' | h'
    · rw [show n + 1 - 1 - j = 0 by omega, if_pos (by norm_num)]
      simp [show ¬ (j < n) by omega]
    · simp [show ¬ (j < n + 1) by omega, show ¬ (j < n) by omega]

theorem bitReverse_two_mul_add_one (q n : ℕ) (hq : q < 2 ^ n) (hn : n + 1 ≤ 32) :
    bitReverse (2 * q + 1) (n + 1) = bitReverse q n + 2 ^ n := by
  have hq2 : 2 * q + 1 < 2 ^ (n + 1) := by rw [pow_succ]; omega
  have hx1 : 2 * q + 1 < 2 ^ 32 := lt_of_lt_of_le hq2 (Nat.pow_le_pow_right (by norm_num) hn)
  have hx2 : q < 2 ^ 32 := lt_of_lt_of_le hq (Nat.pow_le_pow_right (by norm_num) (by omega))
  have hrevlt : bitReverse q n < 2 ^ n := bitReverse_lt_two_pow q n (by omega)
  have h2q : ∀ k, (2 * q + 1).testBit k = if k < 1 then true else q.testBit (k - 1) := by
    intro k
    have h := Nat.testBit_mul_pow_two_add q (show (1 : ℕ) < 2 ^ 1 by norm_num) k
    simp only [pow_one] at h
    rw [h]
    rcases Nat.lt_or_ge k 1 with hk | hk
    · rw [if_pos hk, if_pos hk, show k = 0 by omega]
      simp
    · rw [if_neg (by omega), if_neg (by omega)]
  have hsum : ∀ j, (bitReverse q n + 2 ^ n).testBit j
      = if j < n then (bitReverse q n).testBit j else Nat.testBit 1 (j - n) := by
    intro j
    have h := Nat.testBit_mul_pow_two_add 1 hrevlt j
    rw [show 2 ^ n * 1 + bitReverse q n = bitReverse q n + 2 ^ n by ring] at h
    exact h
  apply Nat.eq_of_testBit_eq
  intro j
  rw [bitReverse_testBit _ _ hx1 (by omega) j, h2q, hsum]
  rcases Nat.lt_or_ge j n with h | h
  · rw [if_pos h, bitReverse_testBit _ _ hx2 (by omega) j,
      show n + 1 - 1 - j = n - j by omega, if_neg (by omega),
      show n - j - 1 = n - 1 - j by omega]
    simp [show j < n + 1 by omega, h]
  · rcases Nat.eq_or_lt_of_le h with h' | h'
    · rw [show n + 1 - 1 - j = 0 by omega, if_pos (by norm_num), if_neg (by omega),
        show j - n = 0 by omega]
      simp [show j < n + 1 by omega]
    · have h1 : Nat.testBit 1 (j - n) = false := by
        have hge : 1 ≤ j - n := by omega
        exact Nat.testBit_lt_two_pow (lt_of_lt_of_le (by norm_num)
          (Nat.pow_le_pow_right (by norm_num) hge))
      simp [show ¬ (j < n + 1) by omega, show ¬ (j < n) by omega, h1]

theorem sum_range_two_mul (n : ℕ) (f : ℕ → ℂ) :
    ∑ u ∈ Finset.range (2 * n), f u
      = (∑ v ∈ Finset.range n, f (2 * v)) + ∑ v ∈ Finset.range n, f (2 * v + 1) := by
  induction n with
  | zero => simp
  | succ n ih =>
    rw [show 2 * (n + 1) = 2 * n + 1 + 1 by ring, Finset.sum_range_succ, Finset.sum_range_succ,
      ih, Finset.sum_range_succ, Finset.sum_range_succ]
    ring

/-- The loop invariant of the stage loop: after `s` stages on the
bit-reversed, scaled input, each block of length `2^s` holds the `2^s`-point
discrete Fourier transform (with kernel `eroot d (2^s)`) of the
corresponding stride-`2^(log_n - s)` decimated subsequence of the input. -/
theorem stagesLoop_dft (d : ℤ) (hd : d = 1 ∨ d = -1) (wmOf : ℕ → ℂ)
    (hwm : ∀ s, wmOf s = eroot d (2 ^ (s + 1)))
    (log_n : ℕ) (hlog : log_n ≤ 32) (x : ℕ → ℂ) (c : ℂ) (s : ℕ) :
    ∀ q t, s ≤ log_n → q < 2 ^ (log_n - s) → t < 2 ^ s →
    stagesLoop wmOf (2 ^ log_n) s (fun i => c * x (bitReverse i log_n)) (q * 2 ^ s + t)
      = c * ∑ u ∈ Finset.range (2 ^ s),
          x (u * 2 ^ (log_n - s) + bitReverse q (log_n - s)) * eroot d (2 ^ s) ^ (t * u) := by
  induction s with
  | zero =>
    intro q t _ hq ht
    have ht0 : t = 0 := by omega
    subst ht0
    simp only [stagesLoop, pow_zero, Nat.mul_one, Nat.add_zero, Finset.range_one,
      Finset.sum_singleton, Nat.zero_mul, Nat.sub_zero, Nat.one_mul, mul_one]
    rw [Nat.zero_add]
  | succ s ih =>
    intro q t hs hq ht
    have hsle : s ≤ log_n := by omega
    have hexp : log_n - s = (log_n - (s + 1)) + 1 := by omega
    have hpow : 2 ^ (log_n - s) = 2 * 2 ^ (log_n - (s + 1)) := by rw [hexp, pow_succ']
    have hB : 2 * 2 ^ s = 2 ^ (s + 1) := (pow_succ' 2 s).symm
    have hdvd : 2 * 2 ^ s ∣ 2 ^ log_n := by
      rw [hB]
      exact pow_dvd_pow 2 (by omega)
    have hkey : 2 ^ (log_n - (s + 1)) * 2 ^ (s + 1) = 2 ^ log_n := by
      rw [← pow_add]
      congr 1
      omega
    have hmul : (q + 1) * 2 ^ (s + 1) = q * 2 ^ (s + 1) + 2 ^ (s + 1) := by ring
    have hiN : q * 2 ^ (s + 1) + t < 2 ^ log_n := by
      have h2 : (q + 1) * 2 ^ (s + 1) ≤ 2 ^ log_n := by
        calc (q + 1) * 2 ^ (s + 1) ≤ 2 ^ (log_n - (s + 1)) * 2 ^ (s + 1) :=
          Nat.mul_le_mul_right _ hq
        _ = 2 ^ log_n := hkey
      omega
    have him : (q * 2 ^ (s + 1) + t) % (2 * 2 ^ s) = t := by
      rw [hB, Nat.mul_comm q, Nat.mul_add_mod, Nat.mod_eq_of_lt ht]
    have hq2 : 2 * q < 2 ^ (log_n - s) := by omega
    have hq21 : 2 * q + 1 < 2 ^ (log_n - s) := by omega
    have hqq : q * 2 ^ (s + 1) = 2 * q * 2 ^ s := by rw [pow_succ]; ring
    have hBne : ((2 : ℕ) ^ (s + 1)) ≠ 0 := (Nat.pos_pow_of_pos _ (by norm_num)).ne'
    have hsplit : ∀ f : ℕ → ℂ, ∑ u ∈ Finset.range (2 ^ (s + 1)), f u
        = (∑ v ∈ Finset.range (2 ^ s), f (2 * v))
          + ∑ v ∈ Finset.range (2 ^ s), f (2 * v + 1) := by
      intro f
      rw [pow_succ' 2 s, sum_range_two_mul]
    simp only [stagesLoop]
    rcases Nat.lt_or_ge t (2 ^ s) with hts | hts
    · -- sum (left) half of the butterfly
      have hodd : q * 2 ^ (s + 1) + t + 2 ^ s = (2 * q + 1) * 2 ^ s + t := by
        rw [pow_succ]; ring
      have heven : q * 2 ^ (s + 1) + t = 2 * q * 2 ^ s + t := by rw [hqq]
      rw [stageStep_left (wmOf s) s (2 ^ log_n) hdvd _ _ hiN (by rw [him]; exact hts),
        him, hwm s, hodd, heven, ih (2 * q) t hsle hq2 hts, ih (2 * q + 1) t hsle hq21 hts,
        hexp, bitReverse_two_mul q (log_n - (s + 1)) hq (by omega),
        bitReverse_two_mul_add_one q (log_n - (s + 1)) hq (by omega), hsplit]
      have he1 : ∑ v ∈ Finset.range (2 ^ s),
            x (2 * v * 2 ^ (log_n - (s + 1)) + bitReverse q (log_n - (s + 1)))
              * eroot d (2 ^ (s + 1)) ^ (t * (2 * v))
          = ∑ u ∈ Finset.range (2 ^ s),
            x (u * 2 ^ (log_n - (s + 1) + 1) + bitReverse q (log_n - (s + 1)))
              * eroot d (2 ^ s) ^ (t * u) := by
        refine Finset.sum_congr rfl (fun v _ => ?_)
        have hw : eroot d (2 ^ (s + 1)) ^ (t * (2 * v)) = eroot d (2 ^ s) ^ (t * v) := by
          calc eroot d (2 ^ (s + 1)) ^ (t * (2 * v))
              = (eroot d (2 ^ (s + 1)) ^ 2) ^ (t * v) := by
                rw [← pow_mul]
                congr 1
                ring
            _ = eroot d (2 ^ s) ^ (t * v) := by rw [eroot_sq]
        rw [show 2 * v * 2 ^ (log_n - (s + 1)) = v * 2 ^ (log_n - (s + 1) + 1) by
            rw [pow_succ]; ring, hw]
      have he2 : ∑ v ∈ Finset.range (2 ^ s),
            x ((2 * v + 1) * 2 ^ (log_n - (s + 1)) + bitReverse q (log_n - (s + 1)))
              * eroot d (2 ^ (s + 1)) ^ (t * (2 * v + 1))
          = ∑ u ∈ Finset.range (2 ^ s),
            eroot d (2 ^ (s + 1)) ^ t
              * (x (u * 2 ^ (log_n - (s + 1) + 1)
                  + (bitReverse q (log_n - (s + 1)) + 2 ^ (log_n - (s + 1))))
                * eroot d (2 ^ s) ^ (t * u)) := by
        refine Finset.sum_congr rfl (fun v _ => ?_)
        have hw : eroot d (2 ^ (s + 1)) ^ (t * (2 * v + 1))
            = eroot d (2 ^ (s + 1)) ^ t * eroot d (2 ^ s) ^ (t * v) := by
          calc eroot d (2 ^ (s + 1)) ^ (t * (2 * v + 1))
              = (eroot d (2 ^ (s + 1)) ^ 2) ^ (t * v) * eroot d (2 ^ (s + 1)) ^ t := by
                rw [← pow_mul, ← pow_add]
                congr 1
                ring
            _ = eroot d (2 ^ (s + 1)) ^ t * eroot d (2 ^ s) ^ (t * v) := by
                rw [eroot_sq]
                ring
        rw [show (2 * v + 1) * 2 ^ (log_n - (s + 1)) + bitReverse q (log_n - (s + 1))
              = v * 2 ^ (log_n - (s + 1) + 1)
                + (bitReverse q (log_n - (s + 1)) + 2 ^ (log_n - (s + 1))) by
            rw [pow_succ]; ring, hw]
        ring
      rw [he1, he2, ← Finset.mul_sum]
      ring
    · -- difference (right) half of the butterfly
      obtain ⟨t', rfl⟩ : ∃ t', t = t' + 2 ^ s := ⟨t - 2 ^ s, by omega⟩
      have ht' : t' < 2 ^ s := by omega
      have hsub : q * 2 ^ (s + 1) + (t' + 2 ^ s) - 2 ^ s = 2 * q * 2 ^ s + t' := by omega
      have hodd2 : q * 2 ^ (s + 1) + (t' + 2 ^ s) = (2 * q + 1) * 2 ^ s + t' := by
        have h1 : (2 * q + 1) * 2 ^ s = 2 * q * 2 ^ s + 2 ^ s := by ring
        omega
      have hexpo : (q * 2 ^ (s + 1) + (t' + 2 ^ s)) % (2 * 2 ^ s) - 2 ^ s = t' := by
        rw [him]; omega
      rw [stageStep_right (wmOf s) s (2 ^ log_n) hdvd _ _ hiN (by rw [him]; omega),
        hexpo, hwm s, hsub, hodd2, ih (2 * q) t' hsle hq2 ht',
        ih (2 * q + 1) t' hsle hq21 ht',
        hexp, bitReverse_two_mul q (log_n - (s + 1)) hq (by omega),
        bitReverse_two_mul_add_one q (log_n - (s + 1)) hq (by omega), hsplit]
      have hhalf : eroot d (2 ^ (s + 1)) ^ (2 ^ s) = -1 := eroot_pow_half d hd s
      have hself : eroot d (2 ^ (s + 1)) ^ (2 ^ (s + 1)) = 1 :=
        eroot_pow_self d (2 ^ (s + 1)) hBne
      have he1 : ∑ v ∈ Finset.range (2 ^ s),
            x (2 * v * 2 ^ (log_n - (s + 1)) + bitReverse q (log_n - (s + 1)))
              * eroot d (2 ^ (s + 1)) ^ ((t' + 2 ^ s) * (2 * v))
          = ∑ u ∈ Finset.range (2 ^ s),
            x (u * 2 ^ (log_n - (s + 1) + 1) + bitReverse q (log_n - (s + 1)))
              * eroot d (2 ^ s) ^ (t' * u) := by
        refine Finset.sum_congr rfl (fun v _ => ?_)
        have hw : eroot d (2 ^ (s + 1)) ^ ((t' + 2 ^ s) * (2 * v))
            = eroot d (2 ^ s) ^ (t' * v) := by
          calc eroot d (2 ^ (s + 1)) ^ ((t' + 2 ^ s) * (2 * v))
              = (eroot d (2 ^ (s + 1)) ^ 2) ^ (t' * v)
                  * (eroot d (2 ^ (s + 1)) ^ 2 ^ (s + 1)) ^ v := by
                rw [← pow_mul, ← pow_mul, ← pow_add]
                congr 1
                rw [pow_succ]
                ring
            _ = eroot d (2 ^ s) ^ (t' * v) := by
                rw [eroot_sq, hself, one_pow, mul_one]
        rw [show 2 * v * 2 ^ (log_n - (s + 1)) = v * 2 ^ (log_n - (s + 1) + 1) by
            rw [pow_succ]; ring, hw]
      have he2 : ∑ v ∈ Finset.range (2 ^ s),
            x ((2 * v + 1) * 2 ^ (log_n - (s + 1)) + bitReverse q (log_n - (s + 1)))
              * eroot d (2 ^ (s + 1)) ^ ((t' + 2 ^ s) * (2 * v + 1))
          = ∑ u ∈ Finset.range (2 ^ s),
            (-(eroot d (2 ^ (s + 1)) ^ t'))
              * (x (u * 2 ^ (log_n - (s + 1) + 1)
                  + (bitReverse q (log_n - (s + 1)) + 2 ^ (log_n - (s + 1))))
                * eroot d (2 ^ s) ^ (t' * u)) := by
        refine Finset.sum_congr rfl (fun v _ => ?_)
        have hw : eroot d (2 ^ (s + 1)) ^ ((t' + 2 ^ s) * (2 * v + 1))
            = -(eroot d (2 ^ (s + 1)) ^ t') * eroot d (2 ^ s) ^ (t' * v) := by
          calc eroot d (2 ^ (s + 1)) ^ ((t' + 2 ^ s) * (2 * v + 1))
              = (eroot d (2 ^ (s + 1)) ^ 2) ^ (t' * v)
                  * (eroot d (2 ^ (s + 1)) ^ 2 ^ (s + 1)) ^ v
                  * eroot d (2 ^ (s + 1)) ^ 2 ^ s
                  * eroot d (2 ^ (s + 1)) ^ t' := by
                rw [← pow_mul, ← pow_mul, ← pow_add, ← pow_add, ← pow_add]
                congr 1
                rw [pow_succ]
                ring
            _ = -(eroot d (2 ^ (s + 1)) ^ t') * eroot d (2 ^ s) ^ (t' * v) := by
                rw [eroot_sq, hself, one_pow, mul_one, hhalf]
                ring
        rw [show (2 * v + 1) * 2 ^ (log_n - (s + 1)) + bitReverse q (log_n - (s + 1))
              = v * 2 ^ (log_n - (s + 1) + 1)
                + (bitReverse q (log_n - (s + 1)) + 2 ^ (log_n - (s + 1))) by
            rw [pow_succ]; ring, hw]
        ring
      rw [he1, he2, ← Finset.mul_sum]
      ring

theorem bitReverse_zero (nb : ℕ) : bitReverse 0 nb = 0 := by
  simp [bitReverse, rev32, swap1, swap2, swap4, swap8, rot16]

/-- Each direction of the iterative FFT computes the (symmetrically
normalized) discrete Fourier transform with kernel `eroot d N`. -/
theorem fftIter_eq_dft (d : ℤ) (hd : d = 1 ∨ d = -1) (log_n : ℕ) (hlog : log_n ≤ 32)
    (x : ℕ → ℂ) (t : ℕ) (ht : t < 2 ^ log_n) :
    fftIter d log_n x t
      = nrm (2 ^ log_n)
          * ∑ u ∈ Finset.range (2 ^ log_n), x u * eroot d (2 ^ log_n) ^ (t * u) := by
  unfold fftIter
  have h := stagesLoop_dft d hd (detailWm d) (detailWm_eq_eroot d) log_n hlog x
    (nrm (2 ^ log_n)) log_n 0 t (le_refl _) (by norm_num) ht
  rw [Nat.zero_mul, Nat.zero_add, Nat.sub_self, bitReverse_zero] at h
  rw [h]
  congr 1
  refine Finset.sum_congr rfl (fun u _ => ?_)
  rw [pow_zero, Nat.mul_one, Nat.add_zero]

theorem eroot_neg (d : ℤ) (n : ℕ) : eroot (-d) n = (eroot d n)⁻¹ := by
  unfold eroot
  rw [← Complex.exp_neg]
  congr 1
  push_cast
  ring

theorem eroot_isPrimitiveRoot (d : ℤ) (hd : d = 1 ∨ d = -1) (n : ℕ) (hn : n ≠ 0) :
    IsPrimitiveRoot (eroot d n) n := by
  have h1 : IsPrimitiveRoot (Complex.exp (2 * (Real.pi : ℂ) * Complex.I / n)) n :=
    Complex.isPrimitiveRoot_exp n hn
  rcases hd with h | h <;> subst h
  · have : eroot 1 n = Complex.exp (2 * (Real.pi : ℂ) * Complex.I / n) := by
      unfold eroot
      push_cast
      ring_nf
    rw [this]
    exact h1
  · have : eroot (-1) n = (Complex.exp (2 * (Real.pi : ℂ) * Complex.I / n))⁻¹ := by
      rw [show (-1 : ℤ) = -(1 : ℤ) from rfl, eroot_neg]
      congr 1
      unfold eroot
      push_cast
      ring_nf
    rw [this]
    exact h1.inv

theorem nrm_mul_nrm_mul_card (log_n : ℕ) :
    nrm (2 ^ log_n) * nrm (2 ^ log_n) * ((2 ^ log_n : ℕ) : ℂ) = 1 := by
  have hpos : (0 : ℝ) < ((2 ^ log_n : ℕ) : ℝ) := by
    have : (0 : ℕ) < 2 ^ log_n := Nat.pos_pow_of_pos _ (by norm_num)
    exact_mod_cast this
  have hs : (0 : ℝ) < Real.sqrt ((2 ^ log_n : ℕ) : ℝ) := Real.sqrt_pos.mpr hpos
  have hmul : Real.sqrt ((2 ^ log_n : ℕ) : ℝ) * Real.sqrt ((2 ^ log_n : ℕ) : ℝ)
      = ((2 ^ log_n : ℕ) : ℝ) := Real.mul_self_sqrt (le_of_lt hpos)
  unfold nrm
  have hsC : ((Real.sqrt ((2 ^ log_n : ℕ) : ℝ) : ℝ) : ℂ) ≠ 0 := by
    exact_mod_cast hs.ne'
  rw [div_mul_div_comm, one_mul]
  rw [div_mul_eq_mul_div, one_mul, div_eq_one_iff_eq (by
    exact mul_ne_zero hsC hsC)]
  rw [← Complex.ofReal_mul, hmul]
  norm_cast

/-- Round trip of the iterative transform: running the stage loops with
direction `-d` undoes running them with direction `d`. -/
theorem fftIter_fftIter (d : ℤ) (hd : d = 1 ∨ d = -1) (log_n : ℕ) (hlog : log_n ≤ 32)
    (x : ℕ → ℂ) (i : ℕ) (hi : i < 2 ^ log_n) :
    fftIter (-d) log_n (fftIter d log_n x) i = x i := by
  have hd' : -d = 1 ∨ -d = -1 := by rcases hd with h | h <;> subst h <;> norm_num
  have hNne : (2 ^ log_n : ℕ) ≠ 0 := (Nat.pos_pow_of_pos _ (by norm_num)).ne'
  have hprim : IsPrimitiveRoot (eroot d (2 ^ log_n)) (2 ^ log_n) :=
    eroot_isPrimitiveRoot d hd (2 ^ log_n) hNne
  rw [fftIter_eq_dft (-d) hd' log_n hlog _ i hi]
  rw [Finset.sum_congr rfl (fun u hu => by
    rw [fftIter_eq_dft d hd log_n hlog x u (Finset.mem_range.mp hu)])]
  have hstep1 : ∀ u ∈ Finset.range (2 ^ log_n),
      (nrm (2 ^ log_n) * ∑ v ∈ Finset.range (2 ^ log_n),
          x v * eroot d (2 ^ log_n) ^ (u * v)) * eroot (-d) (2 ^ log_n) ^ (i * u)
        = nrm (2 ^ log_n) * ∑ v ∈ Finset.range (2 ^ log_n),
            x v * ((eroot d (2 ^ log_n) ^ v * eroot (-d) (2 ^ log_n) ^ i) ^ u) := by
    intro u _
    rw [mul_assoc, Finset.sum_mul]
    congr 1
    refine Finset.sum_congr rfl (fun v _ => ?_)
    rw [mul_pow, ← pow_mul, ← pow_mul, Nat.mul_comm v u, mul_assoc]
  rw [Finset.sum_congr rfl hstep1, ← Finset.mul_sum, Finset.sum_comm]
  have hgeom : ∀ v ∈ Finset.range (2 ^ log_n),
      ∑ u ∈ Finset.range (2 ^ log_n),
          x v * ((eroot d (2 ^ log_n) ^ v * eroot (-d) (2 ^ log_n) ^ i) ^ u)
        = if v = i then x v * ((2 ^ log_n : ℕ) : ℂ) else 0 := by
    intro v hv
    have hv' : v < 2 ^ log_n := Finset.mem_range.mp hv
    rw [← Finset.mul_sum]
    have hne0 : eroot d (2 ^ log_n) ≠ 0 := by
      unfold eroot
      exact Complex.exp_ne_zero _
    by_cases hvi : v = i
    · subst hvi
      have hone : eroot d (2 ^ log_n) ^ v * eroot (-d) (2 ^ log_n) ^ v = 1 := by
        rw [eroot_neg, inv_pow, mul_inv_cancel₀ (pow_ne_zero _ hne0)]
      rw [if_pos rfl, hone]
      simp
    · have hzne : eroot d (2 ^ log_n) ^ v * eroot (-d) (2 ^ log_n) ^ i ≠ 1 := by
        intro hcon
        apply hvi
        apply hprim.pow_inj hv' hi
        rw [eroot_neg, inv_pow, ← div_eq_mul_inv] at hcon
        exact (div_eq_one_iff_eq (pow_ne_zero _ hne0)).mp hcon
      have hzN : (eroot d (2 ^ log_n) ^ v * eroot (-d) (2 ^ log_n) ^ i) ^ (2 ^ log_n)
          = 1 := by
        rw [mul_pow, ← pow_mul, ← pow_mul, Nat.mul_comm v _, Nat.mul_comm i _,
          pow_mul, pow_mul, eroot_pow_self d _ hNne, eroot_pow_self (-d) _ hNne,
          one_pow, one_pow, one_mul]
      rw [if_neg hvi, geom_sum_eq hzne, hzN, sub_self, zero_div, mul_zero]
  rw [Finset.sum_congr rfl hgeom, Finset.sum_ite_eq' (Finset.range (2 ^ log_n)) i
    (fun v => x v * ((2 ^ log_n : ℕ) : ℂ)), if_pos (Finset.mem_range.mpr hi)]
  calc nrm (2 ^ log_n) * (nrm (2 ^ log_n) * (x i * ((2 ^ log_n : ℕ) : ℂ)))
      = nrm (2 ^ log_n) * nrm (2 ^ log_n) * ((2 ^ log_n : ℕ) : ℂ) * x i := by ring
    _ = x i := by rw [nrm_mul_nrm_mul_card, one_mul]

theorem FFTCalculator_fft_eq (log_n : ℕ) (x : ℕ → ℂ) :
    FFTCalculator_fft log_n x = fftIter 1 log_n x := by
  unfold FFTCalculator_fft fftIter butterfly_indices
  rw [show fftCalculator_z = detailWm 1 from funext fftCalculator_z_eq]

theorem FFTCalculator_ifft_eq (log_n : ℕ) (x : ℕ → ℂ) :
    FFTCalculator_ifft log_n x = fftIter (-1) log_n x := by
  unfold FFTCalculator_ifft fftIter butterfly_indices
  rw [show (fun s => (starRingEnd ℂ) (fftCalculator_z s)) = detailWm (-1) from
    funext conj_fftCalculator_z_eq]

/-- Claim C1: for every input signal of power-of-two length `N = 2^log_n`
(with `log_n` in the range accepted by `bitReverse`), applying the forward
FFT and then the inverse FFT — both normalized by `1/sqrt N` — returns the
input exactly (the floating-point computation is idealised over `ℂ`), both
for the free-function `fft`/`ifft` pair and for the `FFTCalculator`
member pair. -/
theorem c1_fft_ifft_roundTrip (log_n : ℕ) (hlog : log_n ≤ 31) (x : ℕ → ℂ) (i : ℕ)
    (hi : i < 2 ^ log_n) :
    ifft log_n (fft log_n x) i = x i ∧
    FFTCalculator_ifft log_n (FFTCalculator_fft log_n x) i = x i := by
  have h := fftIter_fftIter 1 (Or.inl rfl) log_n (by omega) x i hi
  refine ⟨?_, ?_⟩
  · unfold ifft fft
    exact h
  · rw [FFTCalculator_ifft_eq, FFTCalculator_fft_eq]
    exact h

/-- Witness for C1: instance at `log_n = 1`, `x k = k`, `i = 1`. -/
theorem c1_fft_ifft_roundTrip_witness :
    (1 : ℕ) ≤ 31 ∧ (1 : ℕ) < 2 ^ 1 ∧
    (ifft 1 (fft 1 (fun k => (k : ℂ))) 1 = ((1 : ℕ) : ℂ) ∧
      FFTCalculator_ifft 1 (FFTCalculator_fft 1 (fun k => (k : ℂ))) 1 = ((1 : ℕ) : ℂ)) :=
  ⟨by norm_num, by norm_num,
    c1_fft_ifft_roundTrip 1 (by norm_num) (fun k => (k : ℂ)) 1 (by norm_num)⟩

/-! ### `antialiase.h`: spectral truncation and the table builder

C++ source (`antialiase_dft`):
```
const auto nyquist = samplerate * 0.5;
const auto nyquist_index = nyquist / max_playback_frequency;
const auto cutoff_index = static_cast<size_t>(std::floor(nyquist_index)) + 1;
if (cutoff_index > size / 2) return;
(*first).imag(0);
for (auto it = first + cutoff_index; it != last - cutoff_index + 1; ++it) *it = {};
```
Rates are modelled as `ℚ` (so the floor is decidable); spectrum bins as `ℂ`.
The positive-rate domain matches the C++ (a negative `nyquist_index` would hit
an undefined float-to-`size_t` conversion there).
-/

/-- The cutoff index `floor(nyquist / max_playback_frequency) + 1`. -/
def cutoffIndex (samplerate max_playback_frequency : ℚ) : ℕ :=
  (⌊samplerate * (1 / 2) / max_playback_frequency⌋).toNat + 1

/-- `Butterfly::antialiase_dft` on a spectrum of length `size`. -/
def antialiase_dft (size : ℕ) (samplerate max_playback_frequency : ℚ)
    (x : ℕ → ℂ) : ℕ → ℂ :=
  if cutoffIndex samplerate max_playback_frequency > size / 2 then x
  else fun i =>
    if i = 0 then (((x 0).re : ℝ) : ℂ)
    else if cutoffIndex samplerate max_playback_frequency ≤ i ∧
        i < size - cutoffIndex samplerate max_playback_frequency + 1 then 0
    else x i

/-- The per-frequency loop of `Butterfly::antialiase`: for each target
frequency, truncate a fresh copy of the forward-transformed spectrum and
inverse-real-transform it. -/
noncomputable def antialiaseLoop (log_n : ℕ) (samplerate : ℚ) (fftData : ℕ → ℂ) :
    List ℚ → List (ℕ → ℝ)
  | [] => []
  | f :: rest =>
      FFTCalculator_ifft_real log_n (antialiase_dft (2 ^ log_n) samplerate f fftData)
        :: antialiaseLoop log_n samplerate fftData rest

/-- `Butterfly::antialiase(signal, freqs, out_tables, samplerate, fft_calculator)`:
forward-transform the signal once, then run the per-frequency loop. -/
noncomputable def antialiase (log_n : ℕ) (signal : ℕ → ℝ) (freqs : List ℚ)
    (samplerate : ℚ) : List (ℕ → ℝ) :=
  antialiaseLoop log_n samplerate
    (FFTCalculator_fft log_n (fun i => ((signal i : ℝ) : ℂ))) freqs

/-! ### `wavetable_oscillator.h`: the oscillator state machine

The `Wavetable` template parameter is modelled as a structure exposing
exactly the interface the oscillator requires (`size()`, `get`/`operator()`
and `getMaximumPlaybackFrequency()`); all parameters and positions are
modelled as `ℚ` (idealised doubles). The `Wavetable*` member `currentTable`
is modelled as an index into the referenced table list. -/

structure Wavetable where
  size : ℕ
  getMaximumPlaybackFrequency : ℚ
  get : ℚ → ℚ

instance : Inhabited Wavetable := ⟨⟨0, 0, fun _ => 0⟩⟩

/-- `ForwardSearchTableSelector::selectTable`: index of the first table whose
maximum playback frequency is `≥ frequency`, or `tables.length` (the `end`
iterator) when none qualifies. -/
def ForwardSearchTableSelector_selectTable (tables : List Wavetable) (frequency : ℚ) : ℕ :=
  tables.findIdx (fun t => decide (frequency ≤ t.getMaximumPlaybackFrequency))

structure WavetableOscillator where
  sampleRateInv : ℚ := 0
  frequency : ℚ := 0
  delta : ℚ := 0
  currentSamplePosition : ℚ := 0
  value : ℚ := 0
  wavetables : List Wavetable := []
  currentTable : ℕ := 0
  currentTableSize : ℕ := 0
  topFreq : ℚ := 0
  bottomFreq : ℚ := 0

/-- `WavetableOscillator::selectTable` (private member): early return on the
cached frequency window, forward search with fall-back to the last table,
proportional position rescale clamped into `[0, newLength - 1e-7]`. -/
def WavetableOscillator.selectTable (s : WavetableOscillator) : WavetableOscillator :=
  if s.frequency ≤ s.topFreq ∧ s.bottomFreq < s.frequency then s
  else
    let i0 := ForwardSearchTableSelector_selectTable s.wavetables s.frequency
    let i := if i0 = s.wavetables.length then i0 - 1 else i0
    let newTable := s.wavetables.getD i default
    let pos :=
      if s.currentTableSize ≠ 0 then
        max 0 (min ((newTable.size : ℚ) - 1 / 10000000)
          (s.currentSamplePosition * (newTable.size : ℚ) / (s.currentTableSize : ℚ)))
      else s.currentSamplePosition
    { s with
      currentSamplePosition := pos,
      currentTable := i,
      currentTableSize := newTable.size,
      value := newTable.get pos,
      topFreq := newTable.getMaximumPlaybackFrequency,
      bottomFreq := if i = 0 then 0
        else (s.wavetables.getD (i - 1) default).getMaximumPlaybackFrequency }

/-- `WavetableOscillator::updateDelta`:
`delta = frequency * currentTableSize * sampleRateInv`. -/
def WavetableOscillator.updateDelta (s : WavetableOscillator) : WavetableOscillator :=
  { s with delta := s.frequency * (s.currentTableSize : ℚ) * s.sampleRateInv }

/-- `WavetableOscillator::setFrequency`: record the frequency, re-select the
table (with the cached-bounds fast path), recompute the increment. -/
def WavetableOscillator.setFrequency (s : WavetableOscillator) (frequency : ℚ) :
    WavetableOscillator :=
  ({ s with frequency := frequency }).selectTable.updateDelta

/-- The assertion in `setFrequency`:
`assert(frequency * sampleRateInv < 1.0)`. -/
def WavetableOscillator.setFrequencyAssertion (s : WavetableOscillator)
    (frequency : ℚ) : Prop :=
  frequency * s.sampleRateInv < 1

/-- `WavetableOscillator::operator++` (prefix): add the increment, wrap by a
single subtraction, look up the interpolated value. Returns the new current
value together with the new state. -/
def WavetableOscillator.advance (s : WavetableOscillator) : ℚ × WavetableOscillator :=
  let p0 := s.currentSamplePosition + s.delta
  let p := if p0 ≥ (s.currentTableSize : ℚ) then p0 - (s.currentTableSize : ℚ) else p0
  let v := (s.wavetables.getD s.currentTable default).get p
  (v, { s with currentSamplePosition := p, value := v })

/-- `WavetableOscillator::retrigger`: reset the position to 0 and update the
current value. -/
def WavetableOscillator.retrigger (s : WavetableOscillator) : WavetableOscillator :=
  { s with currentSamplePosition := 0,
           value := (s.wavetables.getD s.currentTable default).get 0 }

/-- `WavetableOscillator::setSampleRate`. -/
def WavetableOscillator.setSampleRate (s : WavetableOscillator) (sampleRate : ℚ) :
    WavetableOscillator :=
  ({ s with sampleRateInv := 1 / sampleRate }).setFrequency s.frequency

/-- `MorpingWavetableOscillator` (the source's spelling): two child
oscillators blended by `param ∈ [0,1]`. -/
structure MorpingWavetableOscillator where
  param : ℚ := 0
  osc1 : WavetableOscillator := {}
  osc2 : WavetableOscillator := {}

def MorpingWavetableOscillator.setFrequency (m : MorpingWavetableOscillator)
    (frequency : ℚ) : MorpingWavetableOscillator :=
  { m with osc1 := m.osc1.setFrequency frequency, osc2 := m.osc2.setFrequency frequency }

def MorpingWavetableOscillator.setSampleRate (m : MorpingWavetableOscillator)
    (sampleRate : ℚ) : MorpingWavetableOscillator :=
  { m with osc1 := m.osc1.setSampleRate sampleRate, osc2 := m.osc2.setSampleRate sampleRate }

def MorpingWavetableOscillator.setParam (m : MorpingWavetableOscillator)
    (param : ℚ) : MorpingWavetableOscillator :=
  { m with param := param }

/-- `MorpingWavetableOscillator::operator++`:
`(1 - param) * ++osc1 + param * ++osc2`; both children are ticked. -/
def MorpingWavetableOscillator.advance (m : MorpingWavetableOscillator) :
    ℚ × MorpingWavetableOscillator :=
  ((1 - m.param) * m.osc1.advance.1 + m.param * m.osc2.advance.1,
    { m with osc1 := m.osc1.advance.2, osc2 := m.osc2.advance.2 })

/-- The concrete wavetable set of the spec scenario: three tables tagged with
maximum playback frequencies 500, 2000 and 8000 Hz. -/
def exampleTables : List Wavetable :=
  [⟨4, 500, fun _ => 0⟩, ⟨4, 2000, fun _ => 0⟩, ⟨4, 8000, fun _ => 0⟩]

/-- A fresh oscillator (sample rate 44100) over `exampleTables`. -/
def exampleOsc : WavetableOscillator :=
  { sampleRateInv := 1 / 44100, wavetables := exampleTables }

/-- Claim C2: for every complex spectrum of length `N`, positive sample rate
and positive maximum playback frequency such that
`cutoffIndex = floor((sampleRate/2)/maxPlaybackFrequency) + 1` satisfies
`cutoffIndex ≤ N/2`, after `antialiase_dft` every bin with index in
`[cutoffIndex, N - cutoffIndex + 1)` is exactly zero, and the imaginary part
of bin 0 is exactly zero. -/
theorem c2_antialiase_dft_truncates (size : ℕ) (sr f : ℚ) (hsr : 0 ≤ sr) (hf : 0 < f)
    (x : ℕ → ℂ) (hcut : cutoffIndex sr f ≤ size / 2) :
    (∀ i, cutoffIndex sr f ≤ i → i < size - cutoffIndex sr f + 1 →
      antialiase_dft size sr f x i = 0) ∧
    (antialiase_dft size sr f x 0).im = 0 := by
  have hc1 : 1 ≤ cutoffIndex sr f := Nat.le_add_left 1 _
  constructor
  · intro i h1 h2
    unfold antialiase_dft
    rw [if_neg (by omega), if_neg (by omega), if_pos ⟨h1, h2⟩]
  · unfold antialiase_dft
    rw [if_neg (by omega), if_pos rfl]
    exact Complex.ofReal_im _

/-- Witness for C2: `size = 8`, `sr = 8`, `f = 2` gives cutoff index 3;
bin 3 is zeroed and bin 0 is made real. -/
theorem c2_antialiase_dft_truncates_witness :
    (0 : ℚ) ≤ 8 ∧ (0 : ℚ) < 2 ∧ cutoffIndex 8 2 ≤ 8 / 2 ∧
    cutoffIndex 8 2 ≤ 3 ∧ 3 < 8 - cutoffIndex 8 2 + 1 ∧
    antialiase_dft 8 8 2 (fun _ => Complex.I) 3 = 0 ∧
    (antialiase_dft 8 8 2 (fun _ => Complex.I) 0).im = 0 := by
  have hc : cutoffIndex 8 2 = 3 := by
    unfold cutoffIndex
    norm_num [Int.toNat_ofNat]
    decide
  have h := c2_antialiase_dft_truncates 8 8 2 (by norm_num) (by norm_num)
    (fun _ => Complex.I) (by rw [hc]; norm_num)
  exact ⟨by norm_num, by norm_num, by rw [hc]; norm_num, by rw [hc],
    by rw [hc]; norm_num, h.1 3 (by rw [hc]) (by rw [hc]; norm_num), h.2⟩

/-- Claim C6: for every spectrum, positive sample rate and positive maximum
playback frequency such that the cutoff index is strictly greater than
`N/2`, `antialiase_dft` leaves the spectrum entirely unchanged (every bin,
including the imaginary part of bin 0, keeps its value). -/
theorem c6_antialiase_dft_noop (size : ℕ) (sr f : ℚ) (hsr : 0 ≤ sr) (hf : 0 < f)
    (x : ℕ → ℂ) (hcut : size / 2 < cutoffIndex sr f) :
    (∀ i, antialiase_dft size sr f x i = x i) ∧
    (antialiase_dft size sr f x 0).im = (x 0).im := by
  have h : ∀ i, antialiase_dft size sr f x i = x i := by
    intro i
    unfold antialiase_dft
    rw [if_pos hcut]
  exact ⟨h, by rw [h 0]⟩

/-- Witness for C6: `size = 8`, `sr = 8`, `f = 1/2` gives cutoff index 9 > 4;
the spectrum is untouched. -/
theorem c6_antialiase_dft_noop_witness :
    (0 : ℚ) ≤ 8 ∧ (0 : ℚ) < 1 / 2 ∧ 8 / 2 < cutoffIndex 8 (1 / 2) ∧
    antialiase_dft 8 8 (1 / 2) (fun _ => Complex.I) 1 = Complex.I := by
  have hc : cutoffIndex 8 (1 / 2) = 9 := by
    unfold cutoffIndex
    norm_num [Int.toNat_ofNat]
    decide
  have h := c6_antialiase_dft_noop 8 8 (1 / 2) (by norm_num) (by norm_num)
    (fun _ => Complex.I) (by rw [hc]; norm_num)
  exact ⟨by norm_num, by norm_num, by rw [hc]; norm_num, h.1 1⟩

/-- Claim C5: the table builder processes each target frequency
independently from the same original forward-transformed spectrum: the
output list is exactly the map, over the input frequencies in order, of the
real inverse transform of `antialiase_dft` applied to a fresh copy of
`fft(signal)`. -/
theorem c5_antialiase_independent (log_n : ℕ) (signal : ℕ → ℝ) (freqs : List ℚ)
    (sr : ℚ) :
    antialiase log_n signal freqs sr
      = freqs.map (fun f => FFTCalculator_ifft_real log_n
          (antialiase_dft (2 ^ log_n) sr f
            (FFTCalculator_fft log_n (fun i => ((signal i : ℝ) : ℂ))))) := by
  unfold antialiase
  induction freqs with
  | nil => rfl
  | cons f rest ih =>
    simp only [antialiaseLoop, List.map_cons]
    rw [ih]

theorem setFrequency_fastPath (s : WavetableOscillator) (f : ℚ)
    (ha : s.bottomFreq < f) (hb : f ≤ s.topFreq) :
    s.setFrequency f
      = { s with
          frequency := f,
          delta := f * (s.currentTableSize : ℚ) * s.sampleRateInv } := by
  unfold WavetableOscillator.setFrequency WavetableOscillator.selectTable
    WavetableOscillator.updateDelta
  rw [if_pos ⟨hb, ha⟩]

/-- Claim C7: a `setFrequency` call whose argument lies in the cached window
`(bottomFreq, topFreq]` skips table re-selection: the state changes only in
`frequency` and `delta`; hence two consecutive such calls leave the selected
table reference unchanged. -/
theorem c7_setFrequency_skips_reselection (s : WavetableOscillator) (f1 f2 : ℚ)
    (h1a : s.bottomFreq < f1) (h1b : f1 ≤ s.topFreq)
    (h2a : s.bottomFreq < f2) (h2b : f2 ≤ s.topFreq) :
    s.setFrequency f1
      = { s with
          frequency := f1,
          delta := f1 * (s.currentTableSize : ℚ) * s.sampleRateInv } ∧
    (s.setFrequency f1).setFrequency f2
      = { s with
          frequency := f2,
          delta := f2 * (s.currentTableSize : ℚ) * s.sampleRateInv } ∧
    ((s.setFrequency f1).setFrequency f2).currentTable = s.currentTable := by
  have e1 := setFrequency_fastPath s f1 h1a h1b
  have e2 : (s.setFrequency f1).setFrequency f2
      = { s with
          frequency := f2,
          delta := f2 * (s.currentTableSize : ℚ) * s.sampleRateInv } := by
    rw [e1]
    exact setFrequency_fastPath _ f2 h2a h2b
  exact ⟨e1, e2, by rw [e2]⟩

/-- Witness for C7: a state with window `(100, 1000]`; both calls use
in-window frequencies 200 and 300. -/
theorem c7_setFrequency_skips_reselection_witness :
    let s : WavetableOscillator :=
      { bottomFreq := 100, topFreq := 1000, currentTable := 7 }
    (100 : ℚ) < 200 ∧ (200 : ℚ) ≤ 1000 ∧ (100 : ℚ) < 300 ∧ (300 : ℚ) ≤ 1000 ∧
    ((s.setFrequency 200).setFrequency 300).currentTable = s.currentTable :=
  ⟨by norm_num, by norm_num, by norm_num, by norm_num,
    (c7_setFrequency_skips_reselection
      { bottomFreq := 100, topFreq := 1000, currentTable := 7 } 200 300
      (by norm_num) (by norm_num) (by norm_num) (by norm_num)).2.2⟩

/-- Claim C8: the `setFrequency` assertion `frequency * sampleRateInv < 1`
holds exactly when the requested frequency is strictly below the sample
rate; a frequency at or above the sample rate violates this precondition
(modelled as the assertion predicate being false). -/
theorem c8_setFrequency_assertion_iff (s : WavetableOscillator) (sampleRate f : ℚ)
    (hsr : 0 < sampleRate) (hinv : s.sampleRateInv = 1 / sampleRate) :
    s.setFrequencyAssertion f ↔ f < sampleRate := by
  unfold WavetableOscillator.setFrequencyAssertion
  rw [hinv, mul_one_div]
  exact div_lt_one hsr

/-- Witness for C8: with sample rate 2 the assertion holds at frequency 1
and fails at frequency 2. -/
theorem c8_setFrequency_assertion_iff_witness :
    (0 : ℚ) < 2 ∧
    ({ sampleRateInv := 1 / 2 } : WavetableOscillator).setFrequencyAssertion 1 ∧
    ¬ ({ sampleRateInv := 1 / 2 } : WavetableOscillator).setFrequencyAssertion 2 :=
  ⟨by norm_num,
    (c8_setFrequency_assertion_iff { sampleRateInv := 1 / 2 } 2 1 (by norm_num) rfl).mpr
      (by norm_num),
    fun h => by
      have := (c8_setFrequency_assertion_iff { sampleRateInv := 1 / 2 } 2 2 (by norm_num)
        rfl).mp h
      norm_num at this⟩

/-- Claim C9: the morphing oscillator's advance returns exactly
`(1 - param) * (advanced osc1) + param * (advanced osc2)` and ticks both
children; `setFrequency` and `setSampleRate` forward the same value to both
children. -/
theorem c9_morphing_blend (m : MorpingWavetableOscillator) (f sampleRate : ℚ) :
    m.advance.1 = (1 - m.param) * m.osc1.advance.1 + m.param * m.osc2.advance.1 ∧
    m.advance.2.osc1 = m.osc1.advance.2 ∧
    m.advance.2.osc2 = m.osc2.advance.2 ∧
    (m.setFrequency f).osc1 = m.osc1.setFrequency f ∧
    (m.setFrequency f).osc2 = m.osc2.setFrequency f ∧
    (m.setSampleRate sampleRate).osc1 = m.osc1.setSampleRate sampleRate ∧
    (m.setSampleRate sampleRate).osc2 = m.osc2.setSampleRate sampleRate :=
  ⟨rfl, rfl, rfl, rfl, rfl, rfl, rfl⟩

theorem selectTable_le_length (tables : List Wavetable) (f : ℚ) :
    ForwardSearchTableSelector_selectTable tables f ≤ tables.length := by
  unfold ForwardSearchTableSelector_selectTable
  exact List.findIdx_le_length _

theorem selectTable_found (tables : List Wavetable) (f : ℚ)
    (h : ForwardSearchTableSelector_selectTable tables f < tables.length) :
    f ≤ (tables.getD (ForwardSearchTableSelector_selectTable tables f)
        default).getMaximumPlaybackFrequency := by
  induction tables with
  | nil => simp [ForwardSearchTableSelector_selectTable] at h
  | cons t rest ih =>
    unfold ForwardSearchTableSelector_selectTable at h ⊢
    rw [List.findIdx_cons] at h ⊢
    rcases hpt : decide (f ≤ t.getMaximumPlaybackFrequency) with _ | _
    · simp only [hpt, cond_false] at h ⊢
      simp only [List.length_cons, Nat.add_lt_add_iff_right] at h
      simpa using ih h
    · simp only [hpt, cond_true, List.getD_cons_zero]
      exact of_decide_eq_true hpt

theorem selectTable_before (tables : List Wavetable) (f : ℚ) :
    ∀ k, k < ForwardSearchTableSelector_selectTable tables f →
      (tables.getD k default).getMaximumPlaybackFrequency < f := by
  induction tables with
  | nil => intro k hk; simp [ForwardSearchTableSelector_selectTable] at hk
  | cons t rest ih =>
    intro k hk
    unfold ForwardSearchTableSelector_selectTable at hk
    rw [List.findIdx_cons] at hk
    rcases hpt : decide (f ≤ t.getMaximumPlaybackFrequency) with _ | _
    · simp only [hpt, cond_false] at hk
      cases k with
      | zero =>
        simp only [List.getD_cons_zero]
        exact lt_of_not_le (of_decide_eq_false hpt)
      | succ k =>
        simp only [List.getD_cons_succ]
        exact ih k (by unfold ForwardSearchTableSelector_selectTable; omega)
    · simp only [hpt, cond_true] at hk
      omega

theorem selectTable_none (tables : List Wavetable) (f : ℚ)
    (hall : ∀ t ∈ tables, t.getMaximumPlaybackFrequency < f) :
    ForwardSearchTableSelector_selectTable tables f = tables.length := by
  induction tables with
  | nil => rfl
  | cons t rest ih =>
    unfold ForwardSearchTableSelector_selectTable at ih ⊢
    rw [List.findIdx_cons]
    have hpt : decide (f ≤ t.getMaximumPlaybackFrequency) = false :=
      decide_eq_false (not_le.mpr (hall t (List.mem_cons_self t rest)))
    simp only [hpt, cond_false, List.length_cons, Nat.add_right_cancel_iff]
    exact ih (fun u hu => hall u (List.mem_cons_of_mem t hu))

theorem selectTable_fallback (s : WavetableOscillator)
    (hfast : ¬ (s.frequency ≤ s.topFreq ∧ s.bottomFreq < s.frequency))
    (hall : ∀ t ∈ s.wavetables, t.getMaximumPlaybackFrequency < s.frequency) :
    s.selectTable.currentTable = s.wavetables.length - 1 := by
  unfold WavetableOscillator.selectTable
  rw [if_neg hfast]
  dsimp only
  rw [selectTable_none _ _ hall, if_pos rfl]

/-- Counterexample to claim C3 as stated: for the set built from frequencies
`[500, 2000, 8000]`, `setFrequency(3000)` selects table index 2 (the first
table whose maximum playback frequency is `≥ 3000` is the 8000 Hz one), not
index 1 as the claim asserts. -/
theorem c3_counterexample_3000_selects_2 :
    (exampleOsc.setFrequency 3000).currentTable = 2 ∧
    (exampleOsc.setFrequency 3000).currentTable ≠ 1 := by
  constructor <;> decide

/-- Claim C3 (amended): table selection scans the set in ascending order and
returns the first table whose maximum playback frequency is `≥ f` (every
earlier table is strictly below `f`); if no table qualifies the oscillator
falls back to the last table rather than failing. In particular, for the
set built from `[500, 2000, 8000]`, `setFrequency 400` selects index 0,
`setFrequency 3000` selects index 2, and `setFrequency 20000` selects
index 2. -/
theorem c3_table_selection (tables : List Wavetable) (f : ℚ) (s : WavetableOscillator) :
    ForwardSearchTableSelector_selectTable tables f ≤ tables.length ∧
    (ForwardSearchTableSelector_selectTable tables f < tables.length →
      f ≤ (tables.getD (ForwardSearchTableSelector_selectTable tables f)
          default).getMaximumPlaybackFrequency) ∧
    (∀ k, k < ForwardSearchTableSelector_selectTable tables f →
      (tables.getD k default).getMaximumPlaybackFrequency < f) ∧
    (¬ (s.frequency ≤ s.topFreq ∧ s.bottomFreq < s.frequency) →
      (∀ t ∈ s.wavetables, t.getMaximumPlaybackFrequency < s.frequency) →
      s.selectTable.currentTable = s.wavetables.length - 1) ∧
    (exampleOsc.setFrequency 400).currentTable = 0 ∧
    (exampleOsc.setFrequency 3000).currentTable = 2 ∧
    (exampleOsc.setFrequency 20000).currentTable = 2 :=
  ⟨selectTable_le_length tables f, selectTable_found tables f,
    selectTable_before tables f, selectTable_fallback s,
    by decide, by decide, by decide⟩

/-- Witness for C3 (amended): instance at the `[500, 2000, 8000]` set with
`f = 3000`, and the fallback conjunct at frequency 20000. -/
theorem c3_table_selection_witness :
    (1 < ForwardSearchTableSelector_selectTable exampleTables 3000 ∧
      (exampleTables.getD 1 default).getMaximumPlaybackFrequency < 3000) ∧
    ({ exampleOsc with frequency := 20000 } :
        WavetableOscillator).selectTable.currentTable
      = exampleTables.length - 1 := by
  refine ⟨⟨by decide, ?_⟩, ?_⟩
  · exact (c3_table_selection exampleTables 3000 exampleOsc).2.2.1 1 (by decide)
  · exact (c3_table_selection exampleTables 3000
      { exampleOsc with frequency := 20000 }).2.2.2.1 (by decide) (by decide)

/-- Counterexample to claim C4 as stated: the claim quantifies over every
frequency below the sample rate, but for a negative frequency (here `-1`
with sample rate 2) the increment is negative, `operator++` never wraps
upward, and the position leaves `[0, L)` after one advance. -/
theorem c4_counterexample_negative_frequency :
    ∃ s : WavetableOscillator,
      0 < s.currentTableSize ∧
      0 ≤ s.currentSamplePosition ∧
      s.currentSamplePosition < (s.currentTableSize : ℚ) ∧
      0 < s.sampleRateInv ∧
      s.frequency * s.sampleRateInv < 1 ∧
      s.delta = s.frequency * (s.currentTableSize : ℚ) * s.sampleRateInv ∧
      ¬ (0 ≤ s.advance.2.currentSamplePosition) := by
  refine ⟨{ sampleRateInv := 1 / 2, frequency := -1, delta := -2, currentTableSize := 4 },
    ?_, ?_, ?_, ?_, ?_, ?_, ?_⟩ <;> norm_num [WavetableOscillator.advance]

theorem clamp_mem (L p : ℚ) (hL : 1 ≤ L) :
    0 ≤ max 0 (min (L - 1 / 10000000) p) ∧ max 0 (min (L - 1 / 10000000) p) < L := by
  have h1 : min (L - 1 / 10000000) p ≤ L - 1 / 10000000 := min_le_left _ _
  have h2 : max 0 (min (L - 1 / 10000000) p) ≤ L - 1 / 10000000 :=
    max_le (by linarith) h1
  exact ⟨le_max_left _ _, by linarith⟩

/-- Claim C4 (amended): for every oscillator state with a selected table of
length `L > 0`, a **nonnegative** frequency below the sample rate (so the
increment lies in `[0, L)`) and the position in `[0, L)`, the sample
position stays in `[0, L)`: advance wraps by a single subtraction,
retrigger resets it to 0, and a table switch onto a nonempty table clamps
the rescaled position into `[0, L - 1e-7] ⊂ [0, L)`. -/
theorem c4_position_invariant (s : WavetableOscillator)
    (hL : 0 < s.currentTableSize)
    (hp0 : 0 ≤ s.currentSamplePosition)
    (hp1 : s.currentSamplePosition < (s.currentTableSize : ℚ))
    (hsr : 0 < s.sampleRateInv)
    (hf0 : 0 ≤ s.frequency)
    (hf1 : s.frequency * s.sampleRateInv < 1)
    (hdelta : s.delta = s.frequency * (s.currentTableSize : ℚ) * s.sampleRateInv) :
    (0 ≤ s.advance.2.currentSamplePosition ∧
      s.advance.2.currentSamplePosition < (s.currentTableSize : ℚ)) ∧
    s.retrigger.currentSamplePosition = 0 ∧
    (0 < s.selectTable.currentTableSize →
      0 ≤ s.selectTable.currentSamplePosition ∧
      s.selectTable.currentSamplePosition < (s.selectTable.currentTableSize : ℚ)) := by
  have hLQ : (0 : ℚ) < (s.currentTableSize : ℚ) := by exact_mod_cast hL
  have hd0 : 0 ≤ s.delta := by
    rw [hdelta]
    exact mul_nonneg (mul_nonneg hf0 (le_of_lt hLQ)) (le_of_lt hsr)
  have hd1 : s.delta < (s.currentTableSize : ℚ) := by
    rw [hdelta, show s.frequency * (s.currentTableSize : ℚ) * s.sampleRateInv
        = s.frequency * s.sampleRateInv * (s.currentTableSize : ℚ) by ring]
    calc s.frequency * s.sampleRateInv * (s.currentTableSize : ℚ)
        < 1 * (s.currentTableSize : ℚ) := mul_lt_mul_of_pos_right hf1 hLQ
      _ = (s.currentTableSize : ℚ) := one_mul _
  refine ⟨?_, rfl, ?_⟩
  · unfold WavetableOscillator.advance
    dsimp only
    split_ifs with h
    · constructor <;> linarith
    · constructor <;> linarith
  · by_cases hfast : s.frequency ≤ s.topFreq ∧ s.bottomFreq < s.frequency
    · unfold WavetableOscillator.selectTable
      rw [if_pos hfast]
      intro _
      exact ⟨hp0, hp1⟩
    · unfold WavetableOscillator.selectTable
      rw [if_neg hfast]
      dsimp only
      rw [if_pos (show s.currentTableSize ≠ 0 by omega)]
      intro hsize
      exact clamp_mem _ _ (by exact_mod_cast hsize)

/-- Witness for C4 (amended): a concrete state with `L = 4`, sample rate 2,
frequency 1, position 1. -/
theorem c4_position_invariant_witness :
    let s : WavetableOscillator :=
      { sampleRateInv := 1 / 2, frequency := 1, delta := 2,
        currentSamplePosition := 1, currentTableSize := 4 }
    (0 < s.currentTableSize ∧ 0 ≤ s.currentSamplePosition ∧
      s.currentSamplePosition < (s.currentTableSize : ℚ) ∧
      0 < s.sampleRateInv ∧ 0 ≤ s.frequency ∧ s.frequency * s.sampleRateInv < 1 ∧
      s.delta = s.frequency * (s.currentTableSize : ℚ) * s.sampleRateInv) ∧
    (0 ≤ s.advance.2.currentSamplePosition ∧
      s.advance.2.currentSamplePosition < (s.currentTableSize : ℚ)) :=
  ⟨⟨by norm_num, by norm_num, by norm_num, by norm_num, by norm_num, by norm_num,
      by norm_num⟩,
    (c4_position_invariant
      { sampleRateInv := 1 / 2, frequency := 1, delta := 2,
        currentSamplePosition := 1, currentTableSize := 4 }
      (by norm_num) (by norm_num) (by norm_num) (by norm_num) (by norm_num) (by norm_num)
      (by norm_num)).1⟩

end Butterfly
